import Mathlib

/-!
# Verification of the Botan `mlock_allocator` free-list allocator

A shallow embedding of `src/lib/engine/core_engine/lookup_hash.cpp`
(`mlock_allocator::allocate`, `mlock_allocator::deallocate`,
`ptr_in_pool`, `padding_for_alignment`), together with proofs of the
spec's claims about it.

Modelling conventions:
* `size_t` values are `Nat`; the only multiplication that can wrap in the
  source (`num_elems * elem_size`) is taken modulo `2^w` where `w` is the
  machine word width, passed as an explicit parameter.
* Partial C++ behaviour is returned as `Except Unit`: the `.error ()`
  outcome stands for an execution that has no defined result, namely a
  division by zero (`n / elem_size` with `elem_size == 0`), a failed
  `BOTAN_ASSERT` (which aborts the process), or a dereference of the
  `end()` iterator of the free list.
* Pool memory is a byte map `Nat → Nat` over absolute addresses; the
  provided zeroing utility `clear_mem` overwrites a range with zeros.
* The free list `std::vector<std::pair<size_t, size_t>>` is a
  `List (Nat × Nat)` of `(offset, length)` extents; iterators become
  indices; `std::lower_bound` becomes `lowerBound`, which computes the
  iterator postcondition guaranteed for partitioned (in particular
  sorted) ranges: the first position whose offset is not below the key.
-/

/-- A free-list extent: `(offset, length)` relative to the pool base. -/
abbrev Extent : Type := Nat × Nat

/-- The allocator's free list, in vector order. -/
abbrev FreeList : Type := List Extent

/-- State of the `mlock_allocator`: `pool = some B` holds the base address
of the mmapped region (`none` when the pool is absent/disabled),
`poolsize` is `m_poolsize`, `freelist` is `m_freelist`, and `mem` maps an
absolute address to the byte stored there. -/
structure AllocState where
  pool : Option Nat
  poolsize : Nat
  freelist : FreeList
  mem : Nat → Nat

/-- The zeroing utility (`clear_mem(p, n)` from `mem_ops.h`): write zero
bytes over `[p, p + n)`. -/
def clear_mem (mem : Nat → Nat) (p n : Nat) : Nat → Nat :=
  fun a => if p ≤ a ∧ a < p + n then 0 else mem a

/-- `padding_for_alignment(offset, desired_alignment)` from the source:
`0` if `offset` is already a multiple of the alignment, else the distance
up to the next multiple. Callers always pass a nonzero alignment. -/
def padding_for_alignment (offset desired_alignment : Nat) : Nat :=
  let mod := offset % desired_alignment
  if mod = 0 then 0 else desired_alignment - mod

/-- `ptr_in_pool(pool, poolsize, buf, bufsize)` from the source: `false`
when `buf` lies outside `[pool, pool + poolsize)`; otherwise the function
asserts `buf + bufsize <= pool + poolsize` (`.error ()` models the abort
of a failed `BOTAN_ASSERT`) and returns `true`. -/
def ptr_in_pool (pool poolsize buf bufsize : Nat) : Except Unit Bool :=
  if buf < pool ∨ pool + poolsize ≤ buf then .ok false
  else if buf + bufsize ≤ pool + poolsize then .ok true
  else .error ()

/-- Result of the free-list scan in `mlock_allocator::allocate`:
either the loop returned directly from a perfect fit (index and offset of
the erased extent), or it completed and left a best-fit candidate
(index, offset and length), or no extent fits. -/
inductive Fit where
  | perfect (i off : Nat)
  | best (i off len : Nat)
  | nofit
deriving DecidableEq, Repr

/-- The replacement test `best_fit == m_freelist.end() || best_fit->second
> i->second` for the best-fit candidate accumulator. -/
def replaceCond (best : Option (Nat × Nat × Nat)) (len : Nat) : Bool :=
  match best with
  | none => true
  | some (_, _, blen) => decide (len < blen)

/-- The single `for` loop of `mlock_allocator::allocate`, scanning the
free list once: return at the first perfect fit (`i->second == n` and
`i->first % alignment == 0`), otherwise accumulate the best-fit
candidate (`i->second >= n + padding_for_alignment(i->first, alignment)`
and strictly smaller than the candidate so far). `idx` is the index of
the head of `l` in the full free list, `best` the accumulator. -/
def findFitAux (alignment n : Nat) : FreeList → Nat → Option (Nat × Nat × Nat) → Fit
  | [], _, best =>
    match best with
    | some (i, off, len) => .best i off len
    | none => .nofit
  | (off, len) :: rest, idx, best =>
    if len = n ∧ off % alignment = 0 then .perfect idx off
    else if n + padding_for_alignment off alignment ≤ len ∧ replaceCond best len = true then
      findFitAux alignment n rest (idx + 1) (some (idx, off, len))
    else
      findFitAux alignment n rest (idx + 1) best

/-- The free-list scan of `allocate`, started with an empty accumulator. -/
def findFit (alignment n : Nat) (fl : FreeList) : Fit :=
  findFitAux alignment n fl 0 none

/-- `m_freelist.insert(it, x)` where `it` is the iterator at index `i`:
insert `x` before position `i`. -/
def insertAt (i : Nat) (x : Extent) (l : FreeList) : FreeList :=
  l.take i ++ x :: l.drop i

/-- `std::lower_bound(begin, end, pair(start, 0), comp)` with
`comp x y = x.first < y.first`: on a range partitioned with respect to
the key (true of the sorted free list) it returns the first position
whose `first` component is not below `start`. -/
def lowerBound (start : Nat) : FreeList → Nat
  | [] => 0
  | (off, _) :: rest => if off < start then lowerBound start rest + 1 else 0

/-- `mlock_allocator::allocate(num_elems, elem_size)` on a machine with
`w`-bit `size_t`.  Mirrors the source line by line: null pool check, the
wrapped product `n = num_elems * elem_size`, the overflow guard
`n / elem_size != num_elems` (a division by zero — undefined behaviour,
modelled as `.error ()` — when `elem_size == 0`), the pool-size refusal
`n >= m_poolsize`, the single scan (`findFit`), and the perfect-fit and
best-fit exits, each of which zeroes the handed-out range and asserts
that the returned address is aligned (failed assertion ≃ `.error ()`).
Returns the returned pointer (`none` for `nullptr`) and the new state. -/
def allocate (w : Nat) (st : AllocState) (num_elems elem_size : Nat) :
    Except Unit (Option Nat × AllocState) :=
  match st.pool with
  | none => .ok (none, st)
  | some B =>
    if elem_size = 0 then .error ()
    else
      let n := num_elems * elem_size % 2 ^ w
      let alignment := elem_size
      if n / elem_size ≠ num_elems then .ok (none, st)
      else if st.poolsize ≤ n then .ok (none, st)
      else
        match findFit alignment n st.freelist with
        | .perfect i off =>
          if (B + off) % alignment = 0 then
            .ok (some (B + off),
              { st with
                freelist := st.freelist.eraseIdx i
                mem := clear_mem st.mem (B + off) n })
          else .error ()
        | .best i off len =>
          let pad := padding_for_alignment off alignment
          let newOff := off + (n + pad)
          let newLen := len - (n + pad)
          let fl :=
            if pad ≠ 0 then
              if newLen = 0 then st.freelist.set i (off, pad)
              else insertAt i (off, pad) (st.freelist.set i (newOff, newLen))
            else st.freelist.set i (newOff, newLen)
          if (B + off + pad) % alignment = 0 then
            .ok (some (B + off + pad),
              { st with
                freelist := fl
                mem := clear_mem st.mem (B + off + pad) n })
          else .error ()
        | .nofit => .ok (none, st)

/-- `mlock_allocator::deallocate(p, num_elems, elem_size)` on a machine
with `w`-bit `size_t`.  Mirrors the source: null pool check, the wrapped
product, the `BOTAN_ASSERT(n / elem_size == num_elems)` (division by
zero when `elem_size == 0`, both modelled as `.error ()`), the
`ptr_in_pool` membership test, `start = p - m_pool`, the `lower_bound`
locate, the forward merge with the block at `i`, the backward merge with
the block before `i` (whose adjoining-merge arm dereferences `i` — when
`i` is the end iterator that dereference is undefined behaviour,
modelled as `.error ()`), and the final insert guarded by `n != 0`. -/
def deallocate (w : Nat) (st : AllocState) (p num_elems elem_size : Nat) :
    Except Unit (Bool × AllocState) :=
  match st.pool with
  | none => .ok (false, st)
  | some B =>
    if elem_size = 0 then .error ()
    else
      let n := num_elems * elem_size % 2 ^ w
      if n / elem_size ≠ num_elems then .error ()
      else
        match ptr_in_pool B st.poolsize p n with
        | .error _ => .error ()
        | .ok false => .ok (false, st)
        | .ok true =>
          let start := p - B
          let fl0 := st.freelist
          let i := lowerBound start fl0
          let fwd := i < fl0.length ∧ start + n = (fl0.getD i (0, 0)).1
          let fl1 :=
            if fwd then fl0.set i (start, (fl0.getD i (0, 0)).2 + n) else fl0
          let n1 := if fwd then 0 else n
          if i ≠ 0 ∧ (fl1.getD (i - 1) (0, 0)).1 + (fl1.getD (i - 1) (0, 0)).2 = start then
            if n1 ≠ 0 then
              .ok (true,
                { st with
                  freelist :=
                    fl1.set (i - 1)
                      ((fl1.getD (i - 1) (0, 0)).1, (fl1.getD (i - 1) (0, 0)).2 + n1) })
            else
              if i < fl1.length then
                .ok (true,
                  { st with
                    freelist :=
                      (fl1.set (i - 1)
                        ((fl1.getD (i - 1) (0, 0)).1,
                         (fl1.getD (i - 1) (0, 0)).2 + (fl1.getD i (0, 0)).2)).eraseIdx i })
              else .error ()
          else
            if n1 ≠ 0 then .ok (true, { st with freelist := insertAt i (start, n1) fl1 })
            else .ok (true, { st with freelist := fl1 })

/-- A byte offset `x` is covered by the free list: some extent contains it. -/
def covers (fl : FreeList) (x : Nat) : Prop :=
  ∃ e ∈ fl, e.1 ≤ x ∧ x < e.1 + e.2

/-- Canonical form of the free list (spec section 3): extents are sorted
strictly by offset with no two adjacent extents sharing a boundary
(`offset + length < next offset` between consecutive extents), every
length is positive, and every extent lies inside the pool of size `P`. -/
def canonical (P : Nat) (fl : FreeList) : Prop :=
  fl.Chain' (fun a b => a.1 + a.2 < b.1) ∧ ∀ e ∈ fl, 0 < e.2 ∧ e.1 + e.2 ≤ P

/-- Modelled from the spec (section 4.2, allocate step 2): a perfect fit
is an extent with `len == n` whose offset is already aligned. -/
def specPerfectFit (n align : Nat) (e : Extent) : Prop :=
  e.2 = n ∧ e.1 % align = 0

/-- Modelled from the spec (section 4.2, allocate step 2): an extent is a
candidate when `len ≥ n + pad` for its alignment padding. -/
def specCandidate (n align : Nat) (e : Extent) : Prop :=
  n + padding_for_alignment e.1 align ≤ e.2

instance (n align : Nat) (e : Extent) : Decidable (specPerfectFit n align e) :=
  inferInstanceAs (Decidable (_ ∧ _))

instance (n align : Nat) (e : Extent) : Decidable (specCandidate n align e) :=
  inferInstanceAs (Decidable (_ ≤ _))

/-- What is left of an extent `(off, len)` after `allocate` carves a
request of `n` bytes with `pad` bytes of alignment padding from its
front: the alignment hole `(off, pad)` when `pad ≠ 0`, followed by the
carved remainder, when nonempty.  A perfect fit (`len = n`, `pad = 0`)
leaves nothing. -/
def carve (off len n pad : Nat) : FreeList :=
  (if pad ≠ 0 then [(off, pad)] else []) ++
    (if len - (n + pad) ≠ 0 then [(off + (n + pad), len - (n + pad))] else [])

/-- The sequences of calls admitted by the amended invariant claim:
configurations `(state, live)` reachable from the freshly constructed
allocator (pool of `P` bytes at base `B`, zeroed, free list `[(0, P)]`),
where `live` is the list of outstanding allocations `(address, size)`.
Allocations may succeed (positive total size) or fail; deallocations
either release exactly one outstanding allocation or return `false`
(foreign pointer / disabled pool). -/
inductive Reach (w B P : Nat) : AllocState → List (Nat × Nat) → Prop where
  | init (hP : 0 < P) :
      Reach w B P ⟨some B, P, [(0, P)], fun _ => 0⟩ []
  | alloc_ok {st live ne es A st'} :
      Reach w B P st live → 0 < ne * es →
      allocate w st ne es = .ok (some A, st') →
      Reach w B P st' ((A, ne * es) :: live)
  | alloc_fail {st live ne es st'} :
      Reach w B P st live →
      allocate w st ne es = .ok (none, st') →
      Reach w B P st' live
  | dealloc_ok {st live p ne es b st'} :
      Reach w B P st live → (p, ne * es) ∈ live →
      deallocate w st p ne es = .ok (b, st') →
      Reach w B P st' (live.erase (p, ne * es))
  | dealloc_fail {st live p ne es st'} :
      Reach w B P st live →
      deallocate w st p ne es = .ok (false, st') →
      Reach w B P st' live

section ListHelpers

variable {α : Type _}

theorem eraseIdx_append_length (u : List α) (e : α) (v : List α) :
    (u ++ e :: v).eraseIdx u.length = u ++ v := by
  induction u with
  | nil => rfl
  | cons a u ih => simp only [List.cons_append, List.length_cons, List.eraseIdx_cons_succ, ih]

theorem set_append_length (u : List α) (e : α) (v : List α) (x : α) :
    (u ++ e :: v).set u.length x = u ++ x :: v := by
  induction u with
  | nil => rfl
  | cons a u ih => simp only [List.cons_append, List.length_cons, List.set_cons_succ, ih]

theorem getD_append_length (u : List α) (e : α) (v : List α) (d : α) :
    (u ++ e :: v).getD u.length d = e := by
  induction u with
  | nil => rfl
  | cons a u ih => simpa using ih

theorem getD_mem_of_lt (l : List α) (i : Nat) (d : α) (h : i < l.length) :
    l.getD i d ∈ l := by
  induction l generalizing i with
  | nil => simp at h
  | cons a l ih =>
    cases i with
    | zero => simp
    | succ i =>
      simp only [List.length_cons, Nat.succ_lt_succ_iff] at h
      exact List.mem_cons_of_mem _ (ih i h)

end ListHelpers

theorem insertAt_append (u : FreeList) (x : Extent) (v : FreeList) :
    insertAt u.length x (u ++ v) = u ++ x :: v := by
  unfold insertAt
  rw [List.take_left, List.drop_left]

theorem lowerBound_le_length (s : Nat) (l : FreeList) : lowerBound s l ≤ l.length := by
  induction l with
  | nil => exact Nat.le_refl 0
  | cons e l ih =>
    obtain ⟨off, len⟩ := e
    unfold lowerBound
    split
    · simp only [List.length_cons]
      omega
    · simp

/-- Overflow guard arithmetic: with a positive element size, the check
`(num_elems * elem_size mod 2^w) / elem_size == num_elems` passes exactly
when the mathematical product does not overflow the machine word. -/
theorem wrapped_div_eq_iff (ne es w : Nat) (hes : 0 < es) :
    ne * es % 2 ^ w / es = ne ↔ ne * es < 2 ^ w := by
  constructor
  · intro h
    have hle : ne * es % 2 ^ w ≤ ne * es := Nat.mod_le _ _
    have hmul : ne * es % 2 ^ w / es * es ≤ ne * es % 2 ^ w := Nat.div_mul_le_self _ _
    rw [h] at hmul
    have heq : ne * es % 2 ^ w = ne * es := Nat.le_antisymm hle hmul
    have hlt : ne * es % 2 ^ w < 2 ^ w := Nat.mod_lt _ (pow_pos (by norm_num) w)
    omega
  · intro h
    rw [Nat.mod_eq_of_lt h, Nat.mul_div_cancel _ hes]

/-- An `allocate` call that returns null leaves the state (in particular
the free list) untouched. -/
theorem allocate_none_eq {w : Nat} {st : AllocState} {ne es : Nat} {st' : AllocState}
    (h : allocate w st ne es = .ok (none, st')) : st' = st := by
  obtain ⟨pool, P, fl, mem⟩ := st
  cases pool with
  | none =>
    simp only [allocate] at h
    exact ((Prod.mk.injEq _ _ _ _).mp (Except.ok.inj h)).2.symm
  | some B =>
    by_cases hes : es = 0
    · simp [allocate, hes] at h
    · simp only [allocate, hes, if_false, reduceIte] at h
      split at h
      · exact ((Prod.mk.injEq _ _ _ _).mp (Except.ok.inj h)).2.symm
      · split at h
        · exact ((Prod.mk.injEq _ _ _ _).mp (Except.ok.inj h)).2.symm
        · split at h
          · split at h <;> simp at h
          · split at h <;> simp at h
          · exact ((Prod.mk.injEq _ _ _ _).mp (Except.ok.inj h)).2.symm

/-- A `deallocate` call that returns `false` leaves the state untouched. -/
theorem deallocate_false_eq {w : Nat} {st : AllocState} {p ne es : Nat} {st' : AllocState}
    (h : deallocate w st p ne es = .ok (false, st')) : st' = st := by
  obtain ⟨pool, P, fl, mem⟩ := st
  cases pool with
  | none =>
    simp only [deallocate] at h
    exact ((Prod.mk.injEq _ _ _ _).mp (Except.ok.inj h)).2.symm
  | some B =>
    by_cases hes : es = 0
    · simp [deallocate, hes] at h
    · simp only [deallocate, hes, if_false, reduceIte] at h
      split at h
      · simp at h
      · split at h
        · simp at h
        · exact ((Prod.mk.injEq _ _ _ _).mp (Except.ok.inj h)).2.symm
        · repeat' split at h
          all_goals simp at h

/-- Claim C9: on an enabled pool, an `allocate` call with `elem_size = 0`
reaches the overflow guard, whose expression `n / elem_size` divides by
zero; the guard is well-defined only under the precondition
`elem_size > 0`.  In the embedding the undefined evaluation is the
`.error ()` outcome, reached from the public entry point for every
enabled state and every `num_elems`. -/
theorem claim_C9_div_by_zero_reachable (w B P : Nat) (fl : FreeList)
    (mem : Nat → Nat) (ne : Nat) :
    allocate w ⟨some B, P, fl, mem⟩ ne 0 = .error () := by
  simp [allocate]

/-- Claim C7: when the mathematical product `num_elems * elem_size`
exceeds `2^w - 1` (the wrapped product differs from the true one),
`allocate` returns null and the state — in particular the free list — is
unchanged. -/
theorem claim_C7_overflow_refusal (w : Nat) (st : AllocState) (ne es : Nat)
    (hov : 2 ^ w ≤ ne * es) :
    allocate w st ne es = .ok (none, st) := by
  obtain ⟨pool, P, fl, mem⟩ := st
  cases pool with
  | none => rfl
  | some B =>
    have h2 : 0 < 2 ^ w := pow_pos (by norm_num) w
    have hes : ¬ es = 0 := by
      rintro rfl
      rw [Nat.mul_zero] at hov
      omega
    have hg : ne * es % 2 ^ w / es ≠ ne := by
      intro h
      have := (wrapped_div_eq_iff ne es w (Nat.pos_of_ne_zero hes)).mp h
      omega
    simp [allocate, hes, hg]

/-- Claim C6: when the product does not overflow and the total
`n = num_elems * elem_size` is at least the pool size `P`, `allocate`
returns null; the case `n = P` (a request for exactly the whole pool) is
included.  The hypothesis `hpool` is the constructor invariant that an
enabled pool has a positive size. -/
theorem claim_C6_oversized_refusal (w : Nat) (st : AllocState) (ne es : Nat)
    (hnov : ne * es < 2 ^ w) (hge : st.poolsize ≤ ne * es)
    (hpool : ∀ B, st.pool = some B → 0 < st.poolsize) :
    allocate w st ne es = .ok (none, st) := by
  obtain ⟨pool, P, fl, mem⟩ := st
  cases pool with
  | none => rfl
  | some B =>
    have hP : 0 < P := hpool B rfl
    simp only at hge
    have hes : ¬ es = 0 := by
      rintro rfl
      rw [Nat.mul_zero] at hge
      omega
    have hmod : ne * es % 2 ^ w = ne * es := Nat.mod_eq_of_lt hnov
    have hg : ¬ ne * es % 2 ^ w / es ≠ ne := by
      rw [hmod, Nat.mul_div_cancel _ (Nat.pos_of_ne_zero hes)]
      simp
    have hsz : P ≤ ne * es % 2 ^ w := by rw [hmod]; exact hge
    simp [allocate, hes, hg, hsz]

/-- Claim C6 witness: in a 1024-byte pool, a request for exactly 1024
bytes is refused and the free list is unchanged. -/
theorem claim_C6_oversized_refusal_witness :
    allocate 64 ⟨some 4096, 1024, [(0, 1024)], fun _ => 0⟩ 1024 1 =
      .ok (none, ⟨some 4096, 1024, [(0, 1024)], fun _ => 0⟩) :=
  claim_C6_oversized_refusal 64 ⟨some 4096, 1024, [(0, 1024)], fun _ => 0⟩ 1024 1
    (by norm_num) (by norm_num) (fun B _ => by norm_num)

/-- Claim C8: failure atomicity.  An `allocate` call that returns null
and a `deallocate` call that returns false leave the free list exactly
as it was; no failing call partially mutates it.  (Succeeding calls are the
ones that perform their complete mutation and return a non-null address,
resp. `true`.) -/
theorem claim_C8_failure_atomicity (w : Nat) (st : AllocState) (p ne es : Nat) :
    (match allocate w st ne es with
     | .ok (none, st') => st'.freelist = st.freelist
     | _ => True) ∧
    (match deallocate w st p ne es with
     | .ok (false, st') => st'.freelist = st.freelist
     | _ => True) := by
  constructor
  · cases h : allocate w st ne es with
    | error e => simp
    | ok r =>
      obtain ⟨o, st'⟩ := r
      cases o with
      | none => simp [allocate_none_eq h]
      | some A => simp
  · cases h : deallocate w st p ne es with
    | error e => simp
    | ok r =>
      obtain ⟨b, st'⟩ := r
      cases b with
      | false => simp [deallocate_false_eq h]
      | true => simp

/-- Claim C1, amended: `deallocate` returns `false` and leaves the free
list unchanged when the *address* lies outside the pool `[B, B + P)`;
when the address is inside the pool but `[address, address + n)` runs
past the pool end, the code does not return `false` — the
`BOTAN_ASSERT` inside `ptr_in_pool` aborts (the `.error ()` outcome of
the embedding, exhibited by the counterexample theorem). -/
theorem claim_C1_amended (w : Nat) (st : AllocState) (B p ne es : Nat)
    (hB : st.pool = some B) (hes : 0 < es) (hnov : ne * es < 2 ^ w)
    (hout : p < B ∨ B + st.poolsize ≤ p) :
    deallocate w st p ne es = .ok (false, st) := by
  obtain ⟨pool, P, fl, mem⟩ := st
  simp only at hB hout
  subst hB
  have hesne : ¬ es = 0 := by omega
  have hgneg : ¬ ne * es % 2 ^ w / es ≠ ne := by
    rw [Nat.mod_eq_of_lt hnov, Nat.mul_div_cancel _ hes]
    simp
  have hp : ptr_in_pool B P p (ne * es % 2 ^ w) = .ok false := by
    unfold ptr_in_pool
    rw [if_pos hout]
  simp [deallocate, hesne, hgneg, hp]

/-- Claim C1 witness: deallocating an address below the pool base
returns `false` with the free list untouched. -/
theorem claim_C1_amended_witness :
    deallocate 64 ⟨some 4096, 1024, [(0, 1024)], fun _ => 0⟩ 17 1 1 =
      .ok (false, ⟨some 4096, 1024, [(0, 1024)], fun _ => 0⟩) :=
  claim_C1_amended 64 ⟨some 4096, 1024, [(0, 1024)], fun _ => 0⟩ 4096 17 1 1
    rfl (by norm_num) (by norm_num) (Or.inl (by norm_num))

/-- Claim C1 counterexample: with pool `[4096, 4096 + 1024)`, the call
`deallocate(4096, 1025, 1)` has its range `[4096, 4096 + 1025)` not
entirely within the pool, yet it does not return `false`: the address
itself is inside the pool, so `ptr_in_pool` reaches its assertion
`buf + bufsize <= pool + poolsize`, which fails and aborts. -/
theorem claim_C1_counterexample :
    4096 + 1024 < 4096 + 1025 * 1 ∧
    deallocate 64 ⟨some 4096, 1024, [(0, 1024)], fun _ => 0⟩ 4096 1025 1 = .error () := by
  exact ⟨by norm_num, rfl⟩

/-- Claim C10, amended: a `deallocate` call with total size
`num_elems * elem_size = 0` (and positive `elem_size`, so that the
overflow assertion is defined) on an in-pool address whose offset
matches no free extent's offset and abuts no free extent's end returns
`true` and leaves the free list completely unchanged: no length-zero
extent is inserted, because the final insertion is guarded by `n != 0`.
The free-list positivity invariant is therefore preserved even by
zero-sized deallocations of this shape. -/
theorem claim_C10_amended (w : Nat) (st : AllocState) (B p ne es : Nat)
    (hB : st.pool = some B) (hes : 0 < es) (hzero : ne * es = 0)
    (hlo : B ≤ p) (hhi : p < B + st.poolsize)
    (hmiss : ∀ e ∈ st.freelist, e.1 ≠ p - B ∧ e.1 + e.2 ≠ p - B) :
    deallocate w st p ne es = .ok (true, st) := by
  obtain ⟨pool, P, fl, mem⟩ := st
  simp only at hB hhi hmiss
  subst hB
  have hesne : ¬ es = 0 := by omega
  have hne : ne = 0 := by
    rcases Nat.mul_eq_zero.mp hzero with h | h
    · exact h
    · omega
  subst hne
  have hn : 0 * es % 2 ^ w = 0 := by simp
  have hp : ptr_in_pool B P p 0 = .ok true := by
    unfold ptr_in_pool
    rw [if_neg (by omega), if_pos (by omega)]
  have hfwd : ¬(lowerBound (p - B) fl < List.length fl ∧
      p - B = (List.getD fl (lowerBound (p - B) fl) (0, 0)).1) := by
    rintro ⟨hlt, heq⟩
    exact (hmiss _ (getD_mem_of_lt fl (lowerBound (p - B) fl) (0, 0) hlt)).1 heq.symm
  have hbwd : ¬(lowerBound (p - B) fl ≠ 0 ∧
      (List.getD fl (lowerBound (p - B) fl - 1) (0, 0)).1 +
        (List.getD fl (lowerBound (p - B) fl - 1) (0, 0)).2 = p - B) := by
    rintro ⟨hne0, hsum⟩
    have hle := lowerBound_le_length (p - B) fl
    have hlt : lowerBound (p - B) fl - 1 < fl.length := by omega
    exact (hmiss _ (getD_mem_of_lt fl (lowerBound (p - B) fl - 1) (0, 0) hlt)).2 hsum
  simp only [deallocate, hesne, if_false, reduceIte, hn, Nat.zero_div, ne_eq,
    not_true_eq_false, hp, Nat.add_zero, ite_self, if_neg hfwd, if_neg hbwd]

/-- Claim C10 witness: pool `[0, 100)` with free list `[(0,10), (20,5)]`;
`deallocate(15, 0, 1)` has total size `0` and offset `15`, which matches
no extent offset and abuts no extent end; it returns `true` and the free
list is unchanged. -/
theorem claim_C10_amended_witness :
    deallocate 64 ⟨some 0, 100, [(0, 10), (20, 5)], fun _ => 0⟩ 15 0 1 =
      .ok (true, ⟨some 0, 100, [(0, 10), (20, 5)], fun _ => 0⟩) :=
  claim_C10_amended 64 ⟨some 0, 100, [(0, 10), (20, 5)], fun _ => 0⟩ 0 15 0 1
    rfl (by norm_num) (by norm_num) (by norm_num) (by norm_num) (by decide)

/-- Claim C10 counterexample: at a concrete input satisfying every
condition of the claim (zero total size, address strictly inside the
pool, offset `15` equal to no extent offset and abutting no extent end)
`deallocate` returns `true` but inserts nothing: the free list stays
`[(0,10), (20,5)]`, with no length-zero extent `(15, 0)` in it.  The
insertion described by the claim is unreachable because the final
insert of `deallocate` is guarded by `n != 0`. -/
theorem claim_C10_counterexample :
    (0 : Nat) * 1 = 0 ∧ (0 : Nat) < 15 ∧ (15 : Nat) < 0 + 100 ∧
    (∀ e ∈ [((0 : Nat), (10 : Nat)), (20, 5)], e.1 ≠ 15 - 0 ∧ e.1 + e.2 ≠ 15 - 0) ∧
    deallocate 64 ⟨some 0, 100, [(0, 10), (20, 5)], fun _ => 0⟩ 15 0 1 =
      .ok (true, ⟨some 0, 100, [(0, 10), (20, 5)], fun _ => 0⟩) ∧
    (15, 0) ∉ ([(0, 10), (20, 5)] : FreeList) := by
  refine ⟨rfl, by norm_num, by norm_num, by decide, rfl, by decide⟩

/-- Claim C7 witness: `allocate(SIZE_MAX, 2)` (64-bit) overflows and is
refused with the free list unchanged. -/
theorem claim_C7_overflow_refusal_witness :
    allocate 64 ⟨some 0, 1024, [(0, 1024)], fun _ => 0⟩ (2 ^ 64 - 1) 2 =
      .ok (none, ⟨some 0, 1024, [(0, 1024)], fun _ => 0⟩) :=
  claim_C7_overflow_refusal 64 ⟨some 0, 1024, [(0, 1024)], fun _ => 0⟩ (2 ^ 64 - 1) 2
    (by norm_num)

/-- If the free-list scan returns directly with a perfect fit, the free
list decomposes as `u ++ (off, n) :: v` where `u` holds no perfect fit,
the reported index points at the pivot, and the pivot is aligned. -/
theorem findFitAux_perfect_inv {al n : Nat} (l : FreeList) :
    ∀ (idx : Nat) (acc : Option (Nat × Nat × Nat)) (i off : Nat),
      findFitAux al n l idx acc = .perfect i off →
      ∃ u v, l = u ++ (off, n) :: v ∧ i = idx + u.length ∧ off % al = 0 ∧
        ∀ e ∈ u, ¬(e.2 = n ∧ e.1 % al = 0) := by
  induction l with
  | nil =>
    intro idx acc i off h
    cases acc with
    | none => simp [findFitAux] at h
    | some t =>
      obtain ⟨a, b, c⟩ := t
      simp [findFitAux] at h
  | cons e rest ih =>
    obtain ⟨o, ln⟩ := e
    intro idx acc i off h
    simp only [findFitAux] at h
    by_cases hperf : ln = n ∧ o % al = 0
    · rw [if_pos hperf] at h
      injection h with h1 h2
      subst h1
      subst h2
      exact ⟨[], rest, by simp [hperf.1], by simp, hperf.2, by simp⟩
    · rw [if_neg hperf] at h
      split at h
      all_goals {
        obtain ⟨u, v, hl, hi, hoff, hu⟩ := ih _ _ _ _ h
        refine ⟨(o, ln) :: u, v, by rw [hl, List.cons_append], ?_, hoff, ?_⟩
        · simp only [List.length_cons]
          omega
        · intro e he
          rcases List.mem_cons.mp he with he | he
          · rw [he]
            exact hperf
          · exact hu e he }

/-- If the free-list scan completes with a best-fit candidate, either the
candidate was already in the accumulator, or the free list decomposes as
`u ++ (off, len) :: v` with the pivot a non-perfect candidate at the
reported index. -/
theorem findFitAux_best_inv {al n : Nat} (l : FreeList) :
    ∀ (idx : Nat) (acc : Option (Nat × Nat × Nat)) (i off len : Nat),
      findFitAux al n l idx acc = .best i off len →
      acc = some (i, off, len) ∨
        ∃ u v, l = u ++ (off, len) :: v ∧ i = idx + u.length ∧
          ¬(len = n ∧ off % al = 0) ∧ n + padding_for_alignment off al ≤ len := by
  induction l with
  | nil =>
    intro idx acc i off len h
    cases acc with
    | none => simp [findFitAux] at h
    | some t =>
      obtain ⟨a, b, c⟩ := t
      simp only [findFitAux, Fit.best.injEq] at h
      left
      rw [h.1, h.2.1, h.2.2]
  | cons e rest ih =>
    obtain ⟨o, ln⟩ := e
    intro idx acc i off len h
    simp only [findFitAux] at h
    by_cases hperf : ln = n ∧ o % al = 0
    · rw [if_pos hperf] at h
      exact absurd h (by simp)
    · rw [if_neg hperf] at h
      by_cases hrep : n + padding_for_alignment o al ≤ ln ∧ replaceCond acc ln = true
      · rw [if_pos hrep] at h
        rcases ih _ _ _ _ _ h with hacc | ⟨u, v, hl, hi, hnp, hc⟩
        · injection hacc with h1
          obtain ⟨h2, h3⟩ := Prod.mk.injEq _ _ _ _ ▸ h1
          obtain ⟨h4, h5⟩ := Prod.mk.injEq _ _ _ _ ▸ h3
          subst h2; subst h4; subst h5
          right
          exact ⟨[], rest, by simp, by simp, hperf, hrep.1⟩
        · right
          refine ⟨(o, ln) :: u, v, by rw [hl, List.cons_append], ?_, hnp, hc⟩
          simp only [List.length_cons]
          omega
      · rw [if_neg hrep] at h
        rcases ih _ _ _ _ _ h with hacc | ⟨u, v, hl, hi, hnp, hc⟩
        · left; exact hacc
        · right
          refine ⟨(o, ln) :: u, v, by rw [hl, List.cons_append], ?_, hnp, hc⟩
          simp only [List.length_cons]
          omega

/-- If the prefix `u` holds no perfect fit and the pivot `(off, n)` is a
perfect fit, the scan returns it, whatever the accumulator holds. -/
theorem findFitAux_perfect_of {al n : Nat} (off : Nat) (v : FreeList)
    (hoff : off % al = 0) :
    ∀ (u : FreeList) (idx : Nat) (acc : Option (Nat × Nat × Nat)),
      (∀ e ∈ u, ¬(e.2 = n ∧ e.1 % al = 0)) →
      findFitAux al n (u ++ (off, n) :: v) idx acc = .perfect (idx + u.length) off := by
  intro u
  induction u with
  | nil =>
    intro idx acc _
    simp only [List.nil_append, findFitAux]
    rw [if_pos (by simp [hoff])]
    simp
  | cons e u ihu =>
    obtain ⟨o, ln⟩ := e
    intro idx acc hu
    have hne : ¬(ln = n ∧ o % al = 0) := hu (o, ln) (List.mem_cons_self _ _)
    have hu' : ∀ e ∈ u, ¬(e.2 = n ∧ e.1 % al = 0) :=
      fun e he => hu e (List.mem_cons_of_mem _ he)
    have hlen : idx + ((o, ln) :: u).length = (idx + 1) + u.length := by
      simp only [List.length_cons]
      omega
    simp only [List.cons_append, findFitAux]
    rw [if_neg hne, hlen]
    by_cases hrep : n + padding_for_alignment o al ≤ ln ∧ replaceCond acc ln = true
    · rw [if_pos hrep]
      exact ihu (idx + 1) (some (idx, o, ln)) hu'
    · rw [if_neg hrep]
      exact ihu (idx + 1) acc hu'

/-- Once the accumulator holds the final best fit, the rest of the scan
keeps it: the suffix has no perfect fit and no strictly smaller
candidate. -/
theorem findFitAux_best_keep {al n : Nat} :
    ∀ (v : FreeList) (idx i off len : Nat),
      (∀ e ∈ v, ¬(e.2 = n ∧ e.1 % al = 0)) →
      (∀ e ∈ v, n + padding_for_alignment e.1 al ≤ e.2 → len ≤ e.2) →
      findFitAux al n v idx (some (i, off, len)) = .best i off len := by
  intro v
  induction v with
  | nil =>
    intro idx i off len _ _
    simp [findFitAux]
  | cons e rest ih =>
    obtain ⟨o, ln⟩ := e
    intro idx i off len hnp hmin
    simp only [findFitAux]
    rw [if_neg (hnp (o, ln) (List.mem_cons_self _ _))]
    have hrep : ¬(n + padding_for_alignment o al ≤ ln ∧
        replaceCond (some (i, off, len)) ln = true) := by
      rintro ⟨hcand, hrc⟩
      have hle : len ≤ ln := hmin (o, ln) (List.mem_cons_self _ _) hcand
      simp only [replaceCond, decide_eq_true_eq] at hrc
      omega
    rw [if_neg hrep]
    exact ih (idx + 1) i off len (fun e he => hnp e (List.mem_cons_of_mem _ he))
      (fun e he => hmin e (List.mem_cons_of_mem _ he))

/-- Best-fit selection, forward direction: if no extent is a perfect
fit, the pivot `(off, len)` is a candidate, every earlier candidate is
strictly larger, every later candidate is at least as large, and the
accumulator (if any) is strictly larger, the scan returns the pivot. -/
theorem findFitAux_best_of {al n : Nat} (off len : Nat) (v : FreeList)
    (hnp0 : ¬(len = n ∧ off % al = 0))
    (hcand : n + padding_for_alignment off al ≤ len)
    (hvnp : ∀ e ∈ v, ¬(e.2 = n ∧ e.1 % al = 0))
    (hvmin : ∀ e ∈ v, n + padding_for_alignment e.1 al ≤ e.2 → len ≤ e.2) :
    ∀ (u : FreeList) (idx : Nat) (acc : Option (Nat × Nat × Nat)),
      (∀ e ∈ u, ¬(e.2 = n ∧ e.1 % al = 0)) →
      (∀ e ∈ u, n + padding_for_alignment e.1 al ≤ e.2 → len < e.2) →
      (∀ j o' l', acc = some (j, o', l') → len < l') →
      findFitAux al n (u ++ (off, len) :: v) idx acc = .best (idx + u.length) off len := by
  intro u
  induction u with
  | nil =>
    intro idx acc _ _ hacc
    simp only [List.nil_append, findFitAux]
    rw [if_neg hnp0]
    have hrc : replaceCond acc len = true := by
      cases acc with
      | none => rfl
      | some t =>
        obtain ⟨j, o', l'⟩ := t
        simp only [replaceCond, decide_eq_true_eq]
        exact hacc j o' l' rfl
    rw [if_pos ⟨hcand, hrc⟩]
    have h := findFitAux_best_keep v (idx + 1) idx off len hvnp hvmin
    rw [h]
    simp
  | cons e u ihu =>
    obtain ⟨o, ln⟩ := e
    intro idx acc hunp humin hacc
    have hne : ¬(ln = n ∧ o % al = 0) := hunp (o, ln) (List.mem_cons_self _ _)
    have hunp' : ∀ e ∈ u, ¬(e.2 = n ∧ e.1 % al = 0) :=
      fun e he => hunp e (List.mem_cons_of_mem _ he)
    have humin' : ∀ e ∈ u, n + padding_for_alignment e.1 al ≤ e.2 → len < e.2 :=
      fun e he => humin e (List.mem_cons_of_mem _ he)
    have hlen : idx + ((o, ln) :: u).length = (idx + 1) + u.length := by
      simp only [List.length_cons]
      omega
    simp only [List.cons_append, findFitAux]
    rw [if_neg hne, hlen]
    by_cases hrep : n + padding_for_alignment o al ≤ ln ∧ replaceCond acc ln = true
    · rw [if_pos hrep]
      refine ihu (idx + 1) (some (idx, o, ln)) hunp' humin' ?_
      intro j o' l' hj
      injection hj with hj
      injection hj with h1 h23
      injection h23 with h2 h3
      rw [← h3]
      exact humin (o, ln) (List.mem_cons_self _ _) hrep.1
    · rw [if_neg hrep]
      exact ihu (idx + 1) acc hunp' humin' hacc

/-- With a positive alignment, the padding is zero exactly on aligned
offsets, and otherwise completes the offset to the next multiple. -/
theorem padding_eq_zero_iff (off al : Nat) (hal : 0 < al) :
    padding_for_alignment off al = 0 ↔ off % al = 0 := by
  unfold padding_for_alignment
  constructor
  · intro h
    by_contra hmod
    rw [if_neg hmod] at h
    have := Nat.mod_lt off hal
    omega
  · intro h
    rw [if_pos h]

/-- Master inversion for a successful allocation: a non-null result
implies a positive element size, no overflow, a total below the pool
size, an aligned address, and the free list decomposes around the chosen
extent, from which the request (plus alignment padding) is carved,
leaving `carve` behind; the handed-out range is zeroed. -/
theorem alloc_some_inv {w : Nat} {st : AllocState} {ne es B A : Nat} {st' : AllocState}
    (hB : st.pool = some B)
    (h : allocate w st ne es = .ok (some A, st')) :
    0 < es ∧ ne * es < 2 ^ w ∧ ne * es < st.poolsize ∧ A % es = 0 ∧
    st'.pool = st.pool ∧ st'.poolsize = st.poolsize ∧
    ∃ u off len v,
      st.freelist = u ++ (off, len) :: v ∧
      ne * es + padding_for_alignment off es ≤ len ∧
      A = B + off + padding_for_alignment off es ∧
      st'.freelist = u ++ carve off len (ne * es) (padding_for_alignment off es) ++ v ∧
      st'.mem = clear_mem st.mem A (ne * es) := by
  obtain ⟨pool, P, fl, mem⟩ := st
  simp only at hB
  subst hB
  by_cases hes : es = 0
  · simp [allocate, hes] at h
  · have hespos : 0 < es := Nat.pos_of_ne_zero hes
    simp only [allocate, hes, if_false, reduceIte] at h
    split at h
    · simp at h
    · split at h
      · simp at h
      · next hg hsz =>
        have hdiv : ne * es % 2 ^ w / es = ne := not_not.mp hg
        have hov : ne * es < 2 ^ w := (wrapped_div_eq_iff ne es w hespos).mp hdiv
        have hwrap : ne * es % 2 ^ w = ne * es := Nat.mod_eq_of_lt hov
        rw [hwrap] at h hsz
        split at h
        · next i off heq =>
          split at h
          · next halign =>
            obtain ⟨h1, h2⟩ := Prod.mk.injEq _ _ _ _ ▸ Except.ok.inj h
            have hA : A = B + off := (Option.some.inj h1).symm
            simp only [findFit] at heq
            obtain ⟨u, v, hfl, hi, hoff, _⟩ :=
              findFitAux_perfect_inv fl 0 none i off heq
            have hpad : padding_for_alignment off es = 0 :=
              (padding_eq_zero_iff off es hespos).mpr hoff
            refine ⟨hespos, hov, by dsimp only; omega, by rw [hA]; exact halign,
              by rw [← h2], by rw [← h2], u, off, ne * es, v, hfl, by omega,
              by omega, ?_, ?_⟩
            · rw [← h2]
              simp only
              rw [hfl, hi, Nat.zero_add, eraseIdx_append_length, hpad]
              simp [carve]
            · rw [← h2, hA]
          · simp at h
        · next i off len heq =>
          split at h
          · next halign =>
            obtain ⟨h1, h2⟩ := Prod.mk.injEq _ _ _ _ ▸ Except.ok.inj h
            have hA : A = B + off + padding_for_alignment off es :=
              (Option.some.inj h1).symm
            simp only [findFit] at heq
            rcases findFitAux_best_inv fl 0 none i off len heq with hacc | hdec
            · exact absurd hacc (by simp)
            · obtain ⟨u, v, hfl, hi, hnp, hcand⟩ := hdec
              rw [Nat.zero_add] at hi
              refine ⟨hespos, hov, by dsimp only; omega, by rw [hA]; exact halign,
                by rw [← h2], by rw [← h2], u, off, len, v, hfl, hcand, hA, ?_, ?_⟩
              · rw [← h2]
                simp only
                by_cases hpad : padding_for_alignment off es = 0
                · have hoff : off % es = 0 := (padding_eq_zero_iff off es hespos).mp hpad
                  have hlen : ne * es < len := by
                    rcases Nat.lt_or_ge (ne * es) len with hlt | hge
                    · exact hlt
                    · exact absurd ⟨by omega, hoff⟩ hnp
                  rw [if_neg (by simp [hpad]), hfl, hi, set_append_length, hpad]
                  have hrem : ¬ len - ne * es = 0 := by omega
                  simp [carve, hrem]
                · by_cases hrem : len - (ne * es + padding_for_alignment off es) = 0
                  · rw [if_pos hpad, if_pos hrem, hfl, hi, set_append_length]
                    simp [carve, hpad, hrem]
                  · rw [if_pos hpad, if_neg hrem, hfl, hi, set_append_length]
                    have hins := insertAt_append u (off, padding_for_alignment off es)
                      ((off + (ne * es + padding_for_alignment off es),
                        len - (ne * es + padding_for_alignment off es)) :: v)
                    rw [hins]
                    simp [carve, hpad, hrem]
              · rw [← h2, hA]
          · simp at h
        · simp at h

/-- Claim C5: every non-null address `A` returned by
`allocate(num_elems, elem_size)` with total `n = num_elems * elem_size`
is aligned (`A % elem_size = 0`), the range `[A, A + n)` lies inside the
pool `[B, B + P)`, every byte of it was covered by a single free-list
extent immediately before the call, and every byte of it reads zero in
the post-state.  The hypothesis `hbounds` is the free-list invariant
that extents lie inside the pool. -/
theorem claim_C5_returned_address (w : Nat) (st : AllocState) (B ne es A : Nat)
    (st' : AllocState) (hB : st.pool = some B)
    (hbounds : ∀ e ∈ st.freelist, e.1 + e.2 ≤ st.poolsize)
    (h : allocate w st ne es = .ok (some A, st')) :
    A % es = 0 ∧
    B ≤ A ∧ A + ne * es ≤ B + st.poolsize ∧
    (∃ e ∈ st.freelist, e.1 ≤ A - B ∧ (A - B) + ne * es ≤ e.1 + e.2) ∧
    (∀ a, A ≤ a → a < A + ne * es → st'.mem a = 0) := by
  obtain ⟨_, _, _, halign, _, _, u, off, len, v, hfl, hcand, hA, _, hmem⟩ :=
    alloc_some_inv hB h
  have hmem' : (off, len) ∈ st.freelist := by
    rw [hfl]
    exact List.mem_append_right u (List.mem_cons_self _ _)
  have hP : off + len ≤ st.poolsize := hbounds (off, len) hmem'
  refine ⟨halign, by omega, by omega, ⟨(off, len), hmem', by omega, by omega⟩, ?_⟩
  intro a ha1 ha2
  rw [hmem]
  simp only [clear_mem]
  rw [if_pos ⟨ha1, ha2⟩]

/-- Claim C5 witness: allocating 16 one-byte elements from the initial
free list of a 1024-byte pool at base 4096 (memory previously filled
with ones) returns the aligned in-pool address 4096, carved from the
extent `(0, 1024)`, with the handed-out range zeroed. -/
theorem claim_C5_returned_address_witness :
    (4096 : Nat) % 1 = 0 ∧
    (4096 : Nat) ≤ 4096 ∧ 4096 + 16 * 1 ≤ 4096 + 1024 ∧
    (∃ e ∈ [((0 : Nat), (1024 : Nat))], e.1 ≤ 4096 - 4096 ∧
      (4096 - 4096 : Nat) + 16 * 1 ≤ e.1 + e.2) ∧
    (∀ a, 4096 ≤ a → a < 4096 + 16 * 1 →
      (⟨some 4096, 1024, [(16, 1008)],
        clear_mem (fun _ => 1) 4096 16⟩ : AllocState).mem a = 0) :=
  claim_C5_returned_address 64 ⟨some 4096, 1024, [(0, 1024)], fun _ => 1⟩ 4096 16 1 4096
    ⟨some 4096, 1024, [(16, 1008)], clear_mem (fun _ => 1) 4096 16⟩
    rfl (by decide) rfl

/-- Padding completes an offset to the next multiple of a positive
alignment. -/
theorem padding_aligns (off al : Nat) (hal : 0 < al) :
    (off + padding_for_alignment off al) % al = 0 := by
  unfold padding_for_alignment
  by_cases h : off % al = 0
  · rw [if_pos h]
    simpa using h
  · rw [if_neg h]
    have h1 : off % al < al := Nat.mod_lt _ hal
    have h2 := Nat.div_add_mod off al
    have h4 : al * (off / al + 1) = al * (off / al) + al := by ring
    have h3 : off + (al - off % al) = al * (off / al + 1) := by omega
    rw [h3]
    simp

/-- Claim C4 (amended): the selection policy of an `allocate` call that
passes the refusal checks (positive element size, no overflow, total
below pool size), on a pool whose base is divisible by the element size.
First conjunct: if an extent with `len = n` and aligned offset exists,
the first one in offset order (for the sorted free list, list order) is
removed and `B + off` is returned.  Second conjunct: otherwise the
first-seen candidate of minimal length is chosen — every earlier
candidate strictly longer, every later one at least as long — and the
request is carved from its front after the alignment padding.
`specPerfectFit` and `specCandidate` are modelled from the spec's words.
The base-divisibility restriction is forced by the code: `mmap` only
page-aligns the base, and when `B % elem_size ≠ 0` the selected offset
can fail the alignment `BOTAN_ASSERT`, which aborts instead of removing
the extent and returning `B + off` (see the counterexample). -/
theorem claim_C4_selection_policy_amended (w : Nat) (st : AllocState) (B ne es : Nat)
    (hB : st.pool = some B) (hes : 0 < es) (hBal : B % es = 0)
    (hnov : ne * es < 2 ^ w) (hsz : ne * es < st.poolsize)
    (hcanon : canonical st.poolsize st.freelist) :
    (∀ u off v, st.freelist = u ++ (off, ne * es) :: v →
      specPerfectFit (ne * es) es (off, ne * es) →
      (∀ e ∈ u, ¬ specPerfectFit (ne * es) es e) →
      allocate w st ne es = .ok (some (B + off),
        { st with freelist := u ++ v,
                  mem := clear_mem st.mem (B + off) (ne * es) })) ∧
    (∀ u off len v, st.freelist = u ++ (off, len) :: v →
      (∀ e ∈ st.freelist, ¬ specPerfectFit (ne * es) es e) →
      specCandidate (ne * es) es (off, len) →
      (∀ e ∈ u, specCandidate (ne * es) es e → len < e.2) →
      (∀ e ∈ v, specCandidate (ne * es) es e → len ≤ e.2) →
      allocate w st ne es = .ok (some (B + off + padding_for_alignment off es),
        { st with
          freelist := u ++ carve off len (ne * es) (padding_for_alignment off es) ++ v,
          mem := clear_mem st.mem
            (B + off + padding_for_alignment off es) (ne * es) })) := by
  obtain ⟨pool, P, fl, mem⟩ := st
  simp only at hB hsz
  subst hB
  have hesne : ¬ es = 0 := by omega
  have hwrap : ne * es % 2 ^ w = ne * es := Nat.mod_eq_of_lt hnov
  have hg : ¬ ne * es / es ≠ ne := by
    rw [Nat.mul_div_cancel _ hes]
    simp
  have hszneg : ¬ P ≤ ne * es := by omega
  constructor
  · intro u off v hfl hperf hu
    simp only at hfl
    have hoff : off % es = 0 := hperf.2
    have hff : findFit es (ne * es) fl = .perfect u.length off := by
      rw [hfl, findFit]
      have h := findFitAux_perfect_of off v hoff u 0 none hu
      rw [h]
      simp
    have halign : (B + off) % es = 0 := by
      rw [Nat.add_mod, hBal, hoff]
      simp
    simp only [allocate, hesne, if_false, reduceIte, hwrap, hg, hszneg, hff, if_pos halign]
    rw [hfl, eraseIdx_append_length]
  · intro u off len v hfl hnope hcand humin hvmin
    simp only at hfl hnope
    have hmempiv : (off, len) ∈ fl := by
      rw [hfl]
      exact List.mem_append_right u (List.mem_cons_self _ _)
    have hnp0 : ¬(len = ne * es ∧ off % es = 0) := hnope (off, len) hmempiv
    have hcand' : ne * es + padding_for_alignment off es ≤ len := hcand
    have hff : findFit es (ne * es) fl = .best u.length off len := by
      rw [hfl, findFit]
      have h := findFitAux_best_of off len v hnp0 hcand'
        (fun e he => hnope e
          (by rw [hfl]; exact List.mem_append_right u (List.mem_cons_of_mem _ he)))
        (fun e he hc => hvmin e he hc)
        u 0 none
        (fun e he => hnope e (by rw [hfl]; exact List.mem_append_left _ he))
        (fun e he hc => humin e he hc)
        (fun j o' l' hj => by simp at hj)
      rw [h]
      simp
    have halign : (B + off + padding_for_alignment off es) % es = 0 := by
      rw [Nat.add_assoc, Nat.add_mod, hBal, padding_aligns off es hes]
      simp
    simp only [allocate, hesne, if_false, reduceIte, hwrap, hg, hszneg, hff, if_pos halign]
    by_cases hpad : padding_for_alignment off es = 0
    · have hoff : off % es = 0 := (padding_eq_zero_iff off es hes).mp hpad
      have hlen : ne * es < len := by
        rcases Nat.lt_or_ge (ne * es) len with hlt | hge
        · exact hlt
        · exact absurd ⟨by omega, hoff⟩ hnp0
      rw [if_neg (by simp [hpad]), hfl, set_append_length, hpad]
      have hrem : ¬ len - ne * es = 0 := by omega
      simp [carve, hrem]
    · by_cases hrem : len - (ne * es + padding_for_alignment off es) = 0
      · rw [if_pos hpad, if_pos hrem, hfl, set_append_length]
        simp [carve, hpad, hrem]
      · rw [if_pos hpad, if_neg hrem, hfl, set_append_length]
        rw [insertAt_append u (off, padding_for_alignment off es)
          ((off + (ne * es + padding_for_alignment off es),
            len - (ne * es + padding_for_alignment off es)) :: v)]
        simp [carve, hpad, hrem]

/-- Claim C4 witness: spec scenario 3 — free list
`[(0,64), (128,32), (256,128)]`, `allocate(32, 1)`: the perfect fit
`(128, 32)` wins over the earlier larger extent, and `B + 128` is
returned with that extent removed. -/
theorem claim_C4_selection_policy_amended_witness :
    allocate 64 ⟨some 0, 1024, [(0, 64), (128, 32), (256, 128)], fun _ => 0⟩ 32 1 =
      .ok (some (0 + 128),
        { pool := some 0, poolsize := 1024,
          freelist := [(0, 64)] ++ [(256, 128)],
          mem := clear_mem (fun _ => 0) (0 + 128) (32 * 1) }) :=
  (claim_C4_selection_policy_amended 64
      ⟨some 0, 1024, [(0, 64), (128, 32), (256, 128)], fun _ => 0⟩ 0 32 1
      rfl (by norm_num) (by norm_num) (by norm_num) (by norm_num)
      ⟨by norm_num [List.chain'_cons, List.chain'_singleton], by decide⟩).1
    [(0, 64)] 128 [(256, 128)] rfl (by decide) (by decide)

/-- Claim C4 counterexample: the frozen claim fails when the pool base is
not divisible by the element size.  With base `B = 4096` (page-aligned,
as `mmap` guarantees, but `4096 % 3 = 1`), pool size 9 and canonical
free list `[(0, 3)]`, the call `allocate(1, 3)` passes every refusal
check and `(0, 3)` is a perfect fit (`len = n = 3`, `0 % 3 = 0`), so the
claim asserts it is removed and `B + 0` returned; instead the code fails
the alignment assertion `(m_pool + offset) % alignment == 0` and aborts
(`.error ()`), returning nothing. -/
theorem claim_C4_counterexample :
    canonical 9 [(0, 3)] ∧
    specPerfectFit (1 * 3) 3 (0, 3) ∧
    allocate 64 ⟨some 4096, 9, [(0, 3)], fun _ => 0⟩ 1 3 = .error () :=
  ⟨⟨by norm_num [List.chain'_singleton], by decide⟩, by decide, rfl⟩

theorem covers_nil (x : Nat) : ¬ covers [] x := by
  simp [covers]

theorem covers_cons {e : Extent} {l : FreeList} {x : Nat} :
    covers (e :: l) x ↔ (e.1 ≤ x ∧ x < e.1 + e.2) ∨ covers l x := by
  simp only [covers, List.mem_cons]
  constructor
  · rintro ⟨f, (rfl | hf), h1, h2⟩
    · exact Or.inl ⟨h1, h2⟩
    · exact Or.inr ⟨f, hf, h1, h2⟩
  · rintro (⟨h1, h2⟩ | ⟨f, hf, h1, h2⟩)
    · exact ⟨e, Or.inl rfl, h1, h2⟩
    · exact ⟨f, Or.inr hf, h1, h2⟩

theorem covers_append {l₁ l₂ : FreeList} {x : Nat} :
    covers (l₁ ++ l₂) x ↔ covers l₁ x ∨ covers l₂ x := by
  simp [covers, List.mem_append, or_and_right, exists_or]

theorem mem_of_getLast_opt {α : Type _} {l : List α} {a : α} (h : a ∈ l.getLast?) :
    a ∈ l := by
  obtain ⟨hne, rfl⟩ := List.mem_getLast?_eq_getLast h
  exact List.getLast_mem hne

theorem covers_lt {l : FreeList} {s x : Nat} (h : ∀ e ∈ l, e.1 + e.2 ≤ s)
    (hc : covers l x) : x < s := by
  obtain ⟨e, he, h1, h2⟩ := hc
  have := h e he
  omega

theorem covers_gt {l : FreeList} {s x : Nat} (h : ∀ e ∈ l, s < e.1)
    (hc : covers l x) : s < x := by
  obtain ⟨e, he, h1, h2⟩ := hc
  have := h e he
  omega

/-- The canonical chain relation is transitive, so a canonical free list
is pairwise ordered-and-separated. -/
theorem canonical_pairwise {P : Nat} {fl : FreeList} (h : canonical P fl) :
    fl.Pairwise (fun a b => a.1 + a.2 < b.1) :=
  (@List.chain'_iff_pairwise _ _ ⟨fun a b c hab hbc => by omega⟩ fl).mp h.1

/-- Splitting a canonical free list around a distinguished extent. -/
theorem canonical_split {P : Nat} {u v : FreeList} {o l : Nat}
    (h : canonical P (u ++ (o, l) :: v)) :
    canonical P u ∧ canonical P v ∧ 0 < l ∧ o + l ≤ P ∧
    (∀ e ∈ u, e.1 + e.2 < o) ∧ (∀ e ∈ v, o + l < e.1) := by
  obtain ⟨hch, hb⟩ := h
  have hpw := canonical_pairwise ⟨hch, hb⟩
  rw [List.pairwise_append] at hpw
  obtain ⟨hpu, hpv, hcross⟩ := hpw
  rw [List.pairwise_cons] at hpv
  refine ⟨⟨hpu.chain', fun e he => hb e (List.mem_append_left _ he)⟩,
    ⟨hpv.2.chain', fun e he =>
      hb e (List.mem_append_right _ (List.mem_cons_of_mem _ he))⟩,
    ?_, ?_, ?_, ?_⟩
  · exact (hb (o, l) (List.mem_append_right _ (List.mem_cons_self _ _))).1
  · exact (hb (o, l) (List.mem_append_right _ (List.mem_cons_self _ _))).2
  · intro e he
    exact hcross e he (o, l) (List.mem_cons_self _ _)
  · intro e he
    exact hpv.1 e he

/-- Gluing two canonical halves with every left extent ending strictly
before every right extent starts. -/
theorem canonical_glue0 {P : Nat} {u v : FreeList}
    (hu : canonical P u) (hv : canonical P v)
    (hcross : ∀ e ∈ u, ∀ f ∈ v, e.1 + e.2 < f.1) :
    canonical P (u ++ v) := by
  refine ⟨?_, ?_⟩
  · rw [List.chain'_append]
    refine ⟨hu.1, hv.1, ?_⟩
    intro x hx y hy
    exact hcross x (mem_of_getLast_opt hx) y (List.mem_of_mem_head? hy)
  · intro e he
    rcases List.mem_append.mp he with he | he
    · exact hu.2 e he
    · exact hv.2 e he

/-- Gluing a canonical prefix, a fresh middle extent and a canonical
suffix into a canonical list. -/
theorem canonical_glue1 {P : Nat} {u v : FreeList} {o l : Nat}
    (hu : canonical P u) (hv : canonical P v)
    (hul : ∀ e ∈ u, e.1 + e.2 < o) (hvl : ∀ e ∈ v, o + l < e.1)
    (hl : 0 < l) (hP : o + l ≤ P) :
    canonical P (u ++ (o, l) :: v) := by
  refine ⟨?_, ?_⟩
  · rw [List.chain'_append]
    refine ⟨hu.1, ?_, ?_⟩
    · rw [List.chain'_cons']
      exact ⟨fun y hy => hvl y (List.mem_of_mem_head? hy), hv.1⟩
    · intro x hx y hy
      rw [List.head?_cons, Option.mem_some_iff] at hy
      rw [← hy]
      exact hul x (mem_of_getLast_opt hx)
  · intro e he
    rcases List.mem_append.mp he with he | he
    · exact hu.2 e he
    · rcases List.mem_cons.mp he with rfl | he
      · exact ⟨hl, hP⟩
      · exact hv.2 e he

/-- Where the carved leftovers of an extent sit: exactly the extent's
range minus the handed-out range. -/
theorem covers_carve {off len n pad x : Nat} (hnn : n + pad ≤ len) :
    covers (carve off len n pad) x ↔
      (off ≤ x ∧ x < off + len) ∧ ¬(off + pad ≤ x ∧ x < off + pad + n) := by
  unfold carve
  by_cases hpad : pad = 0
  · subst hpad
    rw [if_neg (by simp)]
    by_cases hrem : len - (n + 0) = 0
    · rw [if_neg (by simpa using hrem), List.nil_append]
      rw [iff_false_intro (covers_nil x), false_iff]
      rintro ⟨⟨h1, h2⟩, h3⟩
      exact h3 (by omega)
    · rw [if_pos (by simpa using hrem), List.nil_append, covers_cons]
      rw [iff_false_intro (covers_nil x), or_false]
      dsimp only
      omega
  · rw [if_pos hpad]
    by_cases hrem : len - (n + pad) = 0
    · rw [if_neg (by simpa using hrem), List.append_nil, covers_cons]
      rw [iff_false_intro (covers_nil x), or_false]
      dsimp only
      omega
    · rw [if_pos (by simpa using hrem), List.cons_append, List.nil_append,
        covers_cons, covers_cons]
      rw [iff_false_intro (covers_nil x), or_false]
      dsimp only
      omega

/-- Allocation on a canonical free list with a positive total: the
result stays canonical, the handed-out range was free and is exactly
what disappears from the free list, and the pool identity is kept. -/
theorem alloc_canonical {w : Nat} {st : AllocState} {ne es B A : Nat} {st' : AllocState}
    (hB : st.pool = some B) (hpos : 0 < ne * es)
    (hc : canonical st.poolsize st.freelist)
    (h : allocate w st ne es = .ok (some A, st')) :
    B ≤ A ∧
    canonical st.poolsize st'.freelist ∧
    (A - B) + ne * es ≤ st.poolsize ∧
    st'.pool = st.pool ∧ st'.poolsize = st.poolsize ∧
    st'.mem = clear_mem st.mem A (ne * es) ∧
    (∀ x, covers st'.freelist x ↔
      covers st.freelist x ∧ ¬(A - B ≤ x ∧ x < (A - B) + ne * es)) ∧
    (∀ x, A - B ≤ x → x < (A - B) + ne * es → covers st.freelist x) := by
  obtain ⟨hes, hov, hsz, halign, hpool, hpsz, u, off, len, v, hfl, hcand, hA, hfl', hmem⟩ :=
    alloc_some_inv hB h
  have hs : A - B = off + padding_for_alignment off es := by omega
  have hc' := hc
  rw [hfl] at hc'
  obtain ⟨hcu, hcv, hlen, hbound, hul, hvg⟩ := canonical_split hc'
  have hAB : B ≤ A := by omega
  have hinP : (A - B) + ne * es ≤ st.poolsize := by omega
  have hcan' : canonical st.poolsize st'.freelist := by
    rw [hfl']
    by_cases hpad : padding_for_alignment off es = 0
    · by_cases hrem : len - (ne * es + padding_for_alignment off es) = 0
      · have hcv0 : carve off len (ne * es) (padding_for_alignment off es) = [] := by
          unfold carve
          rw [if_neg (by simp [hpad]), if_neg (by simpa using hrem), List.append_nil]
        rw [hcv0, List.append_nil]
        exact canonical_glue0 hcu hcv
          (fun e he f hf => by have := hul e he; have := hvg f hf; omega)
      · have hcv1 : carve off len (ne * es) (padding_for_alignment off es) =
            [(off + (ne * es + padding_for_alignment off es),
              len - (ne * es + padding_for_alignment off es))] := by
          unfold carve
          rw [if_neg (by simp [hpad]), if_pos (by simpa using hrem), List.nil_append]
        rw [hcv1]
        have : u ++ [(off + (ne * es + padding_for_alignment off es),
            len - (ne * es + padding_for_alignment off es))] ++ v =
            u ++ (off + (ne * es + padding_for_alignment off es),
              len - (ne * es + padding_for_alignment off es)) :: v := by
          simp
        rw [this]
        refine canonical_glue1 hcu hcv ?_ ?_ (by omega) (by omega)
        · intro e he
          have := hul e he
          omega
        · intro e he
          have := hvg e he
          omega
    · by_cases hrem : len - (ne * es + padding_for_alignment off es) = 0
      · have hcv1 : carve off len (ne * es) (padding_for_alignment off es) =
            [(off, padding_for_alignment off es)] := by
          unfold carve
          rw [if_pos hpad, if_neg (by simpa using hrem), List.append_nil]
        rw [hcv1]
        have : u ++ [(off, padding_for_alignment off es)] ++ v =
            u ++ (off, padding_for_alignment off es) :: v := by
          simp
        rw [this]
        refine canonical_glue1 hcu hcv ?_ ?_ (by omega) (by omega)
        · intro e he
          exact hul e he
        · intro e he
          have := hvg e he
          omega
      · have hcv2 : carve off len (ne * es) (padding_for_alignment off es) =
            [(off, padding_for_alignment off es),
             (off + (ne * es + padding_for_alignment off es),
              len - (ne * es + padding_for_alignment off es))] := by
          unfold carve
          rw [if_pos hpad, if_pos (by simpa using hrem)]
          rfl
        rw [hcv2]
        have : u ++ [(off, padding_for_alignment off es),
            (off + (ne * es + padding_for_alignment off es),
             len - (ne * es + padding_for_alignment off es))] ++ v =
            u ++ (off, padding_for_alignment off es) ::
              ((off + (ne * es + padding_for_alignment off es),
                len - (ne * es + padding_for_alignment off es)) :: v) := by
          simp
        rw [this]
        have hinner : canonical st.poolsize
            ((off + (ne * es + padding_for_alignment off es),
              len - (ne * es + padding_for_alignment off es)) :: v) := by
          have := canonical_glue1 (⟨List.chain'_nil, by simp⟩ : canonical st.poolsize []) hcv
            (u := []) (o := off + (ne * es + padding_for_alignment off es))
            (l := len - (ne * es + padding_for_alignment off es))
            (by simp) (fun e he => by have := hvg e he; omega) (by omega) (by omega)
          simpa using this
        refine canonical_glue1 hcu hinner ?_ ?_ (by omega) (by omega)
        · intro e he
          exact hul e he
        · intro e he
          rcases List.mem_cons.mp he with rfl | he
          · dsimp only
            omega
          · have := hvg e he
            omega
  refine ⟨hAB, hcan', hinP, hpool, hpsz, by rw [hmem], ?_, ?_⟩
  · intro x
    rw [hfl', hfl, hs]
    have hux : covers u x → x < off :=
      covers_lt (fun e he => by have := hul e he; omega)
    have hvx : covers v x → off + len < x := covers_gt hvg
    simp only [covers_append, covers_cons]
    rw [covers_carve hcand]
    constructor
    · rintro ((h1 | ⟨hmid, hr⟩) | h2)
      · refine ⟨Or.inl h1, ?_⟩
        have := hux h1
        rintro ⟨hr1, hr2⟩
        omega
      · exact ⟨Or.inr (Or.inl hmid), by omega⟩
      · refine ⟨Or.inr (Or.inr h2), ?_⟩
        have := hvx h2
        rintro ⟨hr1, hr2⟩
        omega
    · rintro ⟨(h1 | hmid | h2), hr⟩
      · exact Or.inl (Or.inl h1)
      · exact Or.inl (Or.inr ⟨hmid, hr⟩)
      · exact Or.inr h2
  · intro x h1 h2
    rw [hfl, hs] at *
    refine ⟨(off, len), List.mem_append_right _ (List.mem_cons_self _ _), ?_, ?_⟩
    · dsimp only
      omega
    · dsimp only
      omega

theorem lowerBound_take_lt (s : Nat) (l : FreeList) :
    ∀ e ∈ l.take (lowerBound s l), e.1 < s := by
  induction l with
  | nil => simp
  | cons f rest ih =>
    obtain ⟨o, ln⟩ := f
    unfold lowerBound
    by_cases ho : o < s
    · rw [if_pos ho, List.take_succ_cons]
      intro e he
      rcases List.mem_cons.mp he with rfl | he
      · exact ho
      · exact ih e he
    · rw [if_neg ho, List.take_zero]
      simp

theorem lowerBound_drop_head_ge (s : Nat) (l : FreeList) {e : Extent} {v : FreeList}
    (h : l.drop (lowerBound s l) = e :: v) : s ≤ e.1 := by
  induction l generalizing v with
  | nil => simp at h
  | cons f rest ih =>
    obtain ⟨o, ln⟩ := f
    unfold lowerBound at h
    by_cases ho : o < s
    · rw [if_pos ho, List.drop_succ_cons] at h
      exact ih h
    · rw [if_neg ho, List.drop_zero] at h
      injection h with h1 _
      rw [← h1]
      omega

/-- A canonical list's suffix after dropping a prefix is canonical. -/
theorem canonical_append_right {P : Nat} {u r : FreeList}
    (h : canonical P (u ++ r)) : canonical P r := by
  obtain ⟨hch, hb⟩ := h
  rw [List.chain'_append] at hch
  exact ⟨hch.2.1, fun e he => hb e (List.mem_append_right _ he)⟩

set_option maxHeartbeats 1000000 in
/-- Deallocation of a currently-unfree, in-pool, positive-size range on a
canonical free list: `deallocate` returns `true`, the free list stays
canonical and afterwards covers exactly the old free bytes plus the
returned range (merging with the neighbours as needed). -/
theorem dealloc_free_spec {w : Nat} {st : AllocState} {B p ne es : Nat}
    (hB : st.pool = some B) (hes : 0 < es) (hnov : ne * es < 2 ^ w)
    (hpos : 0 < ne * es)
    (hc : canonical st.poolsize st.freelist)
    (hlo : B ≤ p) (hin : (p - B) + ne * es ≤ st.poolsize)
    (hfree : ∀ x, p - B ≤ x → x < (p - B) + ne * es → ¬ covers st.freelist x) :
    ∃ fl', deallocate w st p ne es = .ok (true, { st with freelist := fl' }) ∧
      canonical st.poolsize fl' ∧
      (∀ x, covers fl' x ↔
        covers st.freelist x ∨ (p - B ≤ x ∧ x < (p - B) + ne * es)) := by
  obtain ⟨pool, P, fl, mem⟩ := st
  simp only at hB hc hin hfree ⊢
  subst hB
  have hesne : ¬ es = 0 := by omega
  have hwrap : ne * es % 2 ^ w = ne * es := Nat.mod_eq_of_lt hnov
  have hgneg : ¬ ne * es / es ≠ ne := by
    rw [Nat.mul_div_cancel _ hes]
    simp
  have hp : ptr_in_pool B P p (ne * es) = .ok true := by
    unfold ptr_in_pool
    rw [if_neg (by omega), if_pos (by omega)]
  obtain ⟨i, hi⟩ : ∃ i, lowerBound (p - B) fl = i := ⟨_, rfl⟩
  have hile : i ≤ fl.length := hi ▸ lowerBound_le_length (p - B) fl
  obtain ⟨u, hu⟩ : ∃ u, fl.take i = u := ⟨_, rfl⟩
  have hfleq0 : u ++ fl.drop i = fl := by
    rw [← hu]
    exact List.take_append_drop _ _
  have hulen : u.length = i := by
    rw [← hu, List.length_take]
    omega
  have hu_lt : ∀ e ∈ u, e.1 < p - B := by
    rw [← hu, ← hi]
    exact lowerBound_take_lt _ _
  have hu_end : ∀ e ∈ u, e.1 + e.2 ≤ p - B := by
    intro e he
    have hmem : e ∈ fl := by
      rw [← hfleq0]
      exact List.mem_append_left _ he
    by_contra hgt
    push_neg at hgt
    exact hfree (p - B) (Nat.le_refl _) (by omega)
      ⟨e, hmem, by have := hu_lt e he; omega, by omega⟩
  rcases hdrop : fl.drop i with _ | ⟨⟨so, sl⟩, v⟩
  · -- the freed range lies after every free extent
    have hfleq : fl = u := by
      rw [← hfleq0, hdrop, List.append_nil]
    have hieq : fl.length = i := by
      rw [hfleq, hulen]
    have hfwdF : ¬(i < fl.length ∧
        p - B + ne * es = (fl.getD i (0, 0)).1) := by
      rintro ⟨hlt, _⟩
      omega
    have hall_end : ∀ e ∈ fl, e.1 + e.2 ≤ p - B := by
      intro e he
      exact hu_end e (hfleq ▸ he)
    rcases List.eq_nil_or_concat fl with hfl0 | ⟨u2, pe, hfl2⟩
    · -- leaf 1: empty free list, plain insert
      subst hfl0
      have hizero : i = 0 := by simpa using hieq.symm
      refine ⟨[(p - B, ne * es)], ?_, ?_, ?_⟩
      · simp only [deallocate, hesne, if_false, reduceIte, hwrap, hgneg, hp, hi]
        simp only [if_neg hfwdF]
        split
        · next hcond => exact absurd hizero hcond.1
        · rw [if_pos (show ne * es ≠ 0 by omega)]
          have hins : insertAt i (p - B, ne * es) [] = [(p - B, ne * es)] := by
            unfold insertAt
            simp
          rw [hins]
      · refine ⟨List.chain'_singleton _, ?_⟩
        intro e he
        rw [List.mem_singleton] at he
        subst he
        exact ⟨by omega, by omega⟩
      · intro x
        simp [covers_cons, covers_nil]
    · by_cases hpe : pe.1 + pe.2 = p - B
      · -- leaf 2: backward merge with last extent
        obtain ⟨pe1, pe2⟩ := pe
        rw [List.concat_eq_append] at hfl2
        simp only at hpe
        have hine0 : i ≠ 0 := by
          rw [← hieq, hfl2]
          simp
        have hi1 : i - 1 = u2.length := by
          rw [← hieq, hfl2]
          simp
        have hprev : fl.getD (i - 1) (0, 0) = (pe1, pe2) := by
          rw [hi1, hfl2]
          exact getD_append_length _ _ _ _
        have hbwdT : i ≠ 0 ∧
            (fl.getD (i - 1) (0, 0)).1 + (fl.getD (i - 1) (0, 0)).2 = p - B := by
          rw [hprev]
          exact ⟨hine0, hpe⟩
        have hsetp : fl.set (i - 1) (pe1, pe2 + ne * es) = u2 ++ [(pe1, pe2 + ne * es)] := by
          rw [hi1, hfl2]
          exact set_append_length _ _ _ _
        have hcfl := hc
        rw [hfl2] at hcfl
        obtain ⟨hcu2', -, hpe2pos, hpeP, hu2l, -⟩ := canonical_split hcfl
        refine ⟨u2 ++ [(pe1, pe2 + ne * es)], ?_, ?_, ?_⟩
        · simp only [deallocate, hesne, if_false, reduceIte, hwrap, hgneg, hp, hi]
          simp only [if_neg hfwdF, if_pos hbwdT]
          rw [if_pos (show ne * es ≠ 0 by omega)]
          simp only [hprev, hsetp]
        · exact canonical_glue1 hcu2' ⟨List.chain'_nil, by simp⟩ hu2l (by simp)
            (by omega) (by omega)
        · intro x
          rw [hfl2]
          simp only [covers_append, covers_cons, covers_nil]
          by_cases h1 : covers u2 x <;> simp [h1] <;> omega
      · -- leaf 3: insert at the end, no merge
        obtain ⟨pe1, pe2⟩ := pe
        rw [List.concat_eq_append] at hfl2
        simp only at hpe
        have hi1 : i - 1 = u2.length := by
          rw [← hieq, hfl2]
          simp
        have hprev : fl.getD (i - 1) (0, 0) = (pe1, pe2) := by
          rw [hi1, hfl2]
          exact getD_append_length _ _ _ _
        have hbwdF : ¬(i ≠ 0 ∧
            (fl.getD (i - 1) (0, 0)).1 + (fl.getD (i - 1) (0, 0)).2 = p - B) := by
          rw [hprev]
          rintro ⟨-, hsum⟩
          exact hpe hsum
        have hcfl := hc
        rw [hfl2] at hcfl
        obtain ⟨hcu2', -, hpe2pos, hpeP, hu2l, -⟩ := canonical_split hcfl
        have hpemem : (pe1, pe2) ∈ fl := by
          rw [hfl2]
          exact List.mem_append_right _ (List.mem_cons_self _ _)
        have hend_lt : ∀ e ∈ fl, e.1 + e.2 < p - B := by
          intro e he
          have hpee := hall_end (pe1, pe2) hpemem
          simp only at hpee
          rw [hfl2] at he
          rcases List.mem_append.mp he with he | he
          · have := hu2l e he
            simp only at this
            omega
          · rcases List.mem_cons.mp he with rfl | h0
            · simp only
              omega
            · simp at h0
        refine ⟨fl ++ [(p - B, ne * es)], ?_, ?_, ?_⟩
        · simp only [deallocate, hesne, if_false, reduceIte, hwrap, hgneg, hp, hi]
          simp only [if_neg hfwdF, if_neg hbwdF]
          rw [if_pos (show ne * es ≠ 0 by omega)]
          have hins : insertAt i (p - B, ne * es) fl = fl ++ [(p - B, ne * es)] := by
            unfold insertAt
            rw [hu, hdrop, ← hfleq]
          rw [hins]
        · exact canonical_glue1 hc ⟨List.chain'_nil, by simp⟩ hend_lt (by simp)
            (by omega) (by omega)
        · intro x
          conv_rhs => rw [hfl2]
          rw [hfl2]
          simp only [covers_append, covers_cons, covers_nil]
          by_cases h1 : covers u2 x <;> simp [h1]
  · have hfleq : fl = u ++ (so, sl) :: v := by
      rw [← hfleq0, hdrop]
    have hso_ge : p - B ≤ so := lowerBound_drop_head_ge _ _ (hi ▸ hdrop)
    have hcs := hc
    rw [hfleq] at hcs
    obtain ⟨hcu, hcv, hsl, hsoP, hul, hvgt⟩ := canonical_split hcs
    have hsomem : (so, sl) ∈ fl := by
      rw [hfleq]
      exact List.mem_append_right _ (List.mem_cons_self _ _)
    have hsn_le : p - B + ne * es ≤ so := by
      by_contra hlt
      push_neg at hlt
      exact hfree so hso_ge hlt ⟨(so, sl), hsomem, Nat.le_refl _, by omega⟩
    have hgetDi : fl.getD i (0, 0) = (so, sl) := by
      rw [hfleq, ← hulen]
      exact getD_append_length _ _ _ _
    have hlti : i < fl.length := by
      rw [hfleq, List.length_append, List.length_cons]
      omega
    by_cases hfwd : p - B + ne * es = so
    · have hfwdT : i < fl.length ∧
          p - B + ne * es = (fl.getD i (0, 0)).1 := by
        refine ⟨hlti, ?_⟩
        rw [hgetDi]
        exact hfwd
      rcases List.eq_nil_or_concat u with htake0 | ⟨u2, pe, htake⟩
      · -- leaf 4: forward merge only, freed range before all extents
        subst htake0
        have hizero : i = 0 := by simpa using hulen.symm
        rw [List.nil_append] at hfleq
        have hset1 : fl.set i (p - B, sl + ne * es) = (p - B, sl + ne * es) :: v := by
          rw [hizero, hfleq]
          exact List.set_cons_zero _ _ _
        refine ⟨(p - B, sl + ne * es) :: v, ?_, ?_, ?_⟩
        · simp only [deallocate, hesne, if_false, reduceIte, hwrap, hgneg, hp, hi]
          simp only [hgetDi]
          simp only [if_pos (show i < fl.length ∧ p - B + ne * es = so from ⟨hlti, hfwd⟩),
            reduceIte, hset1]
          split
          · next hcond => exact absurd hizero hcond.1
          · rfl
        · have hglue := canonical_glue1 (P := P) (u := []) (o := p - B) (l := sl + ne * es)
            (⟨List.chain'_nil, by simp⟩ : canonical P []) hcv
            (by simp) (fun e he => by have := hvgt e he; omega) (by omega) (by omega)
          simpa using hglue
        · intro x
          rw [hfleq]
          simp only [covers_cons, covers_nil]
          by_cases h2 : covers v x <;> simp [h2] <;> omega
      · by_cases hpe : pe.1 + pe.2 = p - B
        · -- leaf 5: forward and backward merge
          obtain ⟨pe1, pe2⟩ := pe
          rw [List.concat_eq_append] at htake
          simp only at hpe
          have hine0 : i ≠ 0 := by
            rw [← hulen, htake]
            simp
          have hi1 : i - 1 = u2.length := by
            rw [← hulen, htake]
            simp
          have hset1 : fl.set i (p - B, sl + ne * es) =
              u ++ (p - B, sl + ne * es) :: v := by
            rw [hfleq, ← hulen]
            exact set_append_length _ _ _ _
          have hprevF : ((u ++ (p - B, sl + ne * es) :: v).getD (i - 1) (0, 0)) = (pe1, pe2) := by
            rw [htake, List.append_assoc, List.singleton_append, hi1]
            exact getD_append_length _ _ _ _
          have hbwdT : i ≠ 0 ∧
              ((u ++ (p - B, sl + ne * es) :: v).getD (i - 1) (0, 0)).1 +
                ((u ++ (p - B, sl + ne * es) :: v).getD (i - 1) (0, 0)).2 = p - B := by
            rw [hprevF]
            exact ⟨hine0, hpe⟩
          have hgetDmid : (u ++ (p - B, sl + ne * es) :: v).getD i (0, 0) =
              (p - B, sl + ne * es) := by
            rw [← hulen]
            exact getD_append_length _ _ _ _
          have hlen1 : i < (u ++ (p - B, sl + ne * es) :: v).length := by
            rw [List.length_append, List.length_cons]
            omega
          have hset2 : (u ++ (p - B, sl + ne * es) :: v).set (i - 1)
                (pe1, pe2 + (sl + ne * es)) =
              u2 ++ (pe1, pe2 + (sl + ne * es)) :: (p - B, sl + ne * es) :: v := by
            rw [htake, List.append_assoc, List.singleton_append, hi1]
            exact set_append_length _ _ _ _
          have herase : (u2 ++ (pe1, pe2 + (sl + ne * es)) ::
                (p - B, sl + ne * es) :: v).eraseIdx i =
              u2 ++ (pe1, pe2 + (sl + ne * es)) :: v := by
            have h2 : u2 ++ (pe1, pe2 + (sl + ne * es)) :: (p - B, sl + ne * es) :: v =
                (u2 ++ [(pe1, pe2 + (sl + ne * es))]) ++ (p - B, sl + ne * es) :: v := by
              simp
            have h3 : i = (u2 ++ [(pe1, pe2 + (sl + ne * es))]).length := by
              rw [← hulen, htake]
              simp
            rw [h2, h3, eraseIdx_append_length]
            simp
          have hcu2 := hcu
          rw [htake] at hcu2
          obtain ⟨hcu2', -, hpe2pos, hpeP, hu2l, -⟩ := canonical_split hcu2
          refine ⟨u2 ++ (pe1, pe2 + (sl + ne * es)) :: v, ?_, ?_, ?_⟩
          · simp only [deallocate, hesne, if_false, reduceIte, hwrap, hgneg, hp, hi]
            simp only [hgetDi]
            simp only [if_pos (show i < fl.length ∧ p - B + ne * es = so from ⟨hlti, hfwd⟩),
              reduceIte, hset1]
            simp only [if_pos hbwdT]
            rw [if_pos hlen1]
            simp only [hprevF, hgetDmid, hset2, herase]
            rw [if_neg (by omega : ¬(0 : Nat) ≠ 0)]
          · refine canonical_glue1 hcu2' hcv hu2l ?_ (by omega) (by omega)
            intro e he
            have := hvgt e he
            omega
          · intro x
            rw [hfleq, htake]
            simp only [covers_append, covers_cons, covers_nil]
            by_cases h1 : covers u2 x <;> by_cases h2 : covers v x <;>
              simp [h1, h2] <;> omega
        · -- leaf 6: forward merge only
          obtain ⟨pe1, pe2⟩ := pe
          rw [List.concat_eq_append] at htake
          simp only at hpe
          have hi1 : i - 1 = u2.length := by
            rw [← hulen, htake]
            simp
          have hset1 : fl.set i (p - B, sl + ne * es) =
              u ++ (p - B, sl + ne * es) :: v := by
            rw [hfleq, ← hulen]
            exact set_append_length _ _ _ _
          have hprevF : ((u ++ (p - B, sl + ne * es) :: v).getD (i - 1) (0, 0)) = (pe1, pe2) := by
            rw [htake, List.append_assoc, List.singleton_append, hi1]
            exact getD_append_length _ _ _ _
          have hbwdF : ¬(i ≠ 0 ∧
              ((u ++ (p - B, sl + ne * es) :: v).getD (i - 1) (0, 0)).1 +
                ((u ++ (p - B, sl + ne * es) :: v).getD (i - 1) (0, 0)).2 = p - B) := by
            rw [hprevF]
            rintro ⟨-, hsum⟩
            exact hpe hsum
          have hcu2 := hcu
          rw [htake] at hcu2
          obtain ⟨hcu2', -, hpe2pos, hpeP, hu2l, -⟩ := canonical_split hcu2
          have hpemem : (pe1, pe2) ∈ u := by
            rw [htake]
            exact List.mem_append_right _ (List.mem_cons_self _ _)
          have hu_lt_s : ∀ e ∈ u, e.1 + e.2 < p - B := by
            intro e he
            have hpee := hu_end (pe1, pe2) hpemem
            simp only at hpee
            rw [htake] at he
            rcases List.mem_append.mp he with he | he
            · have := hu2l e he
              simp only at this
              omega
            · rcases List.mem_cons.mp he with rfl | h0
              · simp only
                omega
              · simp at h0
          refine ⟨u ++ (p - B, sl + ne * es) :: v, ?_, ?_, ?_⟩
          · simp only [deallocate, hesne, if_false, reduceIte, hwrap, hgneg, hp, hi]
            simp only [hgetDi]
            simp only [if_pos (show i < fl.length ∧ p - B + ne * es = so from ⟨hlti, hfwd⟩),
              reduceIte, hset1]
            simp only [if_neg hbwdF]
            rw [if_neg (by omega : ¬(0 : Nat) ≠ 0)]
          · refine canonical_glue1 hcu hcv hu_lt_s ?_ (by omega) (by omega)
            intro e he
            have := hvgt e he
            omega
          · intro x
            rw [hfleq]
            simp only [covers_append, covers_cons, covers_nil]
            by_cases h1 : covers u x <;> by_cases h2 : covers v x <;>
              simp [h1, h2] <;> omega
    · have hfwdF : ¬(i < fl.length ∧
          p - B + ne * es = (fl.getD i (0, 0)).1) := by
        rintro ⟨_, heq⟩
        rw [hgetDi] at heq
        exact hfwd heq
      have hvgt2 : ∀ e ∈ (so, sl) :: v, p - B + ne * es < e.1 := by
        intro e he
        rcases List.mem_cons.mp he with rfl | he
        · dsimp only
          omega
        · have := hvgt e he
          omega
      rcases List.eq_nil_or_concat u with htake0 | ⟨u2, pe, htake⟩
      · -- leaf 7: insert before all extents
        subst htake0
        have hizero : i = 0 := by simpa using hulen.symm
        rw [List.nil_append] at hfleq
        refine ⟨(p - B, ne * es) :: (so, sl) :: v, ?_, ?_, ?_⟩
        · simp only [deallocate, hesne, if_false, reduceIte, hwrap, hgneg, hp, hi]
          simp only [if_neg hfwdF]
          split
          · next hcond => exact absurd hizero hcond.1
          · rw [if_pos (show ne * es ≠ 0 by omega)]
            have hins : insertAt i (p - B, ne * es) fl =
                (p - B, ne * es) :: (so, sl) :: v := by
              unfold insertAt
              rw [hu, hdrop, List.nil_append]
            rw [hins]
        · have hglue := canonical_glue1 (P := P) (u := [])
            (⟨List.chain'_nil, by simp⟩ : canonical P [])
            (by simpa using hcs)
            (by simp) (fun e he => hvgt2 e he) (by omega) (by omega)
          simpa using hglue
        · intro x
          rw [hfleq]
          simp only [covers_cons, covers_nil]
          by_cases h2 : covers v x <;> simp [h2] <;> omega
      · by_cases hpe : pe.1 + pe.2 = p - B
        · -- leaf 8: backward merge only
          obtain ⟨pe1, pe2⟩ := pe
          rw [List.concat_eq_append] at htake
          simp only at hpe
          have hine0 : i ≠ 0 := by
            rw [← hulen, htake]
            simp
          have hi1 : i - 1 = u2.length := by
            rw [← hulen, htake]
            simp
          have hprev : fl.getD (i - 1) (0, 0) = (pe1, pe2) := by
            rw [hi1, hfleq, htake, List.append_assoc, List.singleton_append]
            exact getD_append_length _ _ _ _
          have hbwdT : i ≠ 0 ∧
              (fl.getD (i - 1) (0, 0)).1 + (fl.getD (i - 1) (0, 0)).2 = p - B := by
            rw [hprev]
            exact ⟨hine0, hpe⟩
          have hcu2 := hcu
          rw [htake] at hcu2
          obtain ⟨hcu2', -, hpe2pos, hpeP, hu2l, -⟩ := canonical_split hcu2
          have hsetprev : fl.set (i - 1) (pe1, pe2 + ne * es) =
              u2 ++ (pe1, pe2 + ne * es) :: (so, sl) :: v := by
            rw [hi1, hfleq, htake, List.append_assoc, List.singleton_append]
            exact set_append_length _ _ _ _
          refine ⟨u2 ++ (pe1, pe2 + ne * es) :: (so, sl) :: v, ?_, ?_, ?_⟩
          · simp only [deallocate, hesne, if_false, reduceIte, hwrap, hgneg, hp, hi]
            simp only [if_neg hfwdF, if_pos hbwdT]
            rw [if_pos (show ne * es ≠ 0 by omega)]
            simp only [hprev, hsetprev]
          · refine canonical_glue1 hcu2'
              (canonical_append_right (u := u) (hfleq ▸ hc)) hu2l ?_ (by omega) (by omega)
            intro e he
            have := hvgt2 e he
            omega
          · intro x
            rw [hfleq, htake]
            simp only [covers_append, covers_cons, covers_nil]
            by_cases h1 : covers u2 x <;> by_cases h2 : covers v x <;>
              simp [h1, h2] <;> omega
        · -- leaf 9: plain insert between extents
          obtain ⟨pe1, pe2⟩ := pe
          rw [List.concat_eq_append] at htake
          simp only at hpe
          have hi1 : i - 1 = u2.length := by
            rw [← hulen, htake]
            simp
          have hprev : fl.getD (i - 1) (0, 0) = (pe1, pe2) := by
            rw [hi1, hfleq, htake, List.append_assoc, List.singleton_append]
            exact getD_append_length _ _ _ _
          have hbwdF : ¬(i ≠ 0 ∧
              (fl.getD (i - 1) (0, 0)).1 + (fl.getD (i - 1) (0, 0)).2 = p - B) := by
            rw [hprev]
            rintro ⟨_, hsum⟩
            exact hpe hsum
          have hcu2 := hcu
          rw [htake] at hcu2
          obtain ⟨hcu2', -, hpe2pos, hpeP, hu2l, -⟩ := canonical_split hcu2
          have hpemem : (pe1, pe2) ∈ u := by
            rw [htake]
            exact List.mem_append_right _ (List.mem_cons_self _ _)
          have hu_lt_s : ∀ e ∈ u, e.1 + e.2 < p - B := by
            intro e he
            have hpee := hu_end (pe1, pe2) hpemem
            simp only at hpee
            rw [htake] at he
            rcases List.mem_append.mp he with he | he
            · have := hu2l e he
              simp only at this
              omega
            · rcases List.mem_cons.mp he with rfl | h0
              · simp only
                omega
              · simp at h0
          refine ⟨u ++ (p - B, ne * es) :: (so, sl) :: v, ?_, ?_, ?_⟩
          · simp only [deallocate, hesne, if_false, reduceIte, hwrap, hgneg, hp, hi]
            simp only [if_neg hfwdF, if_neg hbwdF]
            rw [if_pos (show ne * es ≠ 0 by omega)]
            have hins : insertAt i (p - B, ne * es) fl =
                u ++ (p - B, ne * es) :: (so, sl) :: v := by
              unfold insertAt
              rw [hu, hdrop]
            rw [hins]
          · refine canonical_glue1 hcu (canonical_append_right (u := u) (hfleq ▸ hc))
              hu_lt_s (fun e he => hvgt2 e he) (by omega) (by omega)
          · intro x
            rw [hfleq]
            simp only [covers_append, covers_cons, covers_nil]
            by_cases h1 : covers u x <;> by_cases h2 : covers v x <;>
              simp [h1, h2] <;> omega

/-- Two canonical free lists covering the same set of bytes are equal. -/
theorem canonical_covers_ext {P : Nat} :
    ∀ {fl fl' : FreeList}, canonical P fl → canonical P fl' →
      (∀ x, covers fl x ↔ covers fl' x) → fl = fl' := by
  intro fl
  induction fl with
  | nil =>
    intro fl' _ hc' hcov
    cases fl' with
    | nil => rfl
    | cons e l =>
      obtain ⟨o, ln⟩ := e
      have hpos : 0 < ln := ((canonical_split (u := []) (by simpa using hc')).2.2).1
      have hcv : covers ((o, ln) :: l) o :=
        ⟨(o, ln), List.mem_cons_self _ _, Nat.le_refl _, by omega⟩
      rw [← hcov o] at hcv
      exact absurd hcv (covers_nil o)
  | cons e fl ih =>
    obtain ⟨o, ln⟩ := e
    intro fl' hc hc' hcov
    obtain ⟨-, hct, hln, -, -, htail⟩ := canonical_split (u := []) (by simpa using hc)
    cases fl' with
    | nil =>
      have hcv : covers ((o, ln) :: fl) o :=
        ⟨(o, ln), List.mem_cons_self _ _, Nat.le_refl _, by omega⟩
      rw [hcov o] at hcv
      exact absurd hcv (covers_nil o)
    | cons e' l' =>
      obtain ⟨o', ln'⟩ := e'
      obtain ⟨-, hct', hln', -, -, htail'⟩ := canonical_split (u := []) (by simpa using hc')
      have hmin : ∀ x, covers ((o, ln) :: fl) x → o ≤ x := by
        intro x hx
        rcases covers_cons.mp hx with h1 | h1
        · exact h1.1
        · obtain ⟨f, hf, hf1, -⟩ := h1
          have := htail f hf
          omega
      have hmin' : ∀ x, covers ((o', ln') :: l') x → o' ≤ x := by
        intro x hx
        rcases covers_cons.mp hx with h1 | h1
        · exact h1.1
        · obtain ⟨f, hf, hf1, -⟩ := h1
          have := htail' f hf
          omega
      have hoo : o = o' := by
        have h1 : o' ≤ o := hmin' o ((hcov o).mp
          ⟨(o, ln), List.mem_cons_self _ _, Nat.le_refl _, by omega⟩)
        have h2 : o ≤ o' := hmin o' ((hcov o').mpr
          ⟨(o', ln'), List.mem_cons_self _ _, Nat.le_refl _, by omega⟩)
        omega
      subst hoo
      have hnot : ∀ x, o + ln ≤ x → ¬ covers ((o, ln) :: fl) x ∨ covers fl x := by
        intro x hx
        by_cases h : covers fl x
        · exact Or.inr h
        · refine Or.inl fun hcx => ?_
          rcases covers_cons.mp hcx with h1 | h1
          · omega
          · exact h h1
      have hll : ln = ln' := by
        by_contra hne
        rcases Nat.lt_or_ge ln ln' with hlt | hge
        · have hcx : covers ((o, ln') :: l') (o + ln) :=
            covers_cons.mpr (Or.inl ⟨by omega, by omega⟩)
          rw [← hcov] at hcx
          rcases covers_cons.mp hcx with h1 | h1
          · omega
          · obtain ⟨f, hf, hf1, -⟩ := h1
            have := htail f hf
            omega
        · have hlt : ln' < ln := by omega
          have hcx : covers ((o, ln) :: fl) (o + ln') :=
            covers_cons.mpr (Or.inl ⟨by omega, by omega⟩)
          rw [hcov] at hcx
          rcases covers_cons.mp hcx with h1 | h1
          · omega
          · obtain ⟨f, hf, hf1, -⟩ := h1
            have := htail' f hf
            omega
      subst hll
      have htl : fl = l' := by
        apply ih hct hct'
        intro x
        constructor
        · intro hx
          obtain ⟨f, hf, hf1, hf2⟩ := hx
          have hfar := htail f hf
          have hcx : covers ((o, ln) :: l') x :=
            (hcov x).mp (covers_cons.mpr (Or.inr ⟨f, hf, hf1, hf2⟩))
          rcases covers_cons.mp hcx with h1 | h1
          · omega
          · exact h1
        · intro hx
          obtain ⟨f, hf, hf1, hf2⟩ := hx
          have hfar := htail' f hf
          have hcx : covers ((o, ln) :: fl) x :=
            (hcov x).mpr (covers_cons.mpr (Or.inr ⟨f, hf, hf1, hf2⟩))
          rcases covers_cons.mp hcx with h1 | h1
          · omega
          · exact h1
      rw [htl]

/-- Claim C2 (amended): a successful positive-size allocation followed by
deallocating exactly the returned block restores the free list. -/
theorem claim_C2_roundtrip_amended (w : Nat) (st : AllocState) (B ne es A : Nat)
    (st' : AllocState) (hB : st.pool = some B)
    (hc : canonical st.poolsize st.freelist)
    (hpos : 0 < ne * es)
    (h : allocate w st ne es = .ok (some A, st')) :
    deallocate w st' A ne es = .ok (true, { st' with freelist := st.freelist }) := by
  obtain ⟨hAB, hcan', hinP, hpool', hpsz', hmem', hcov', hrange⟩ :=
    alloc_canonical hB hpos hc h
  obtain ⟨hes, hnov, -⟩ := alloc_some_inv hB h
  have hB' : st'.pool = some B := by rw [hpool', hB]
  have hfree' : ∀ x, A - B ≤ x → x < (A - B) + ne * es → ¬ covers st'.freelist x := by
    intro x h1 h2 hcx
    exact ((hcov' x).mp hcx).2 ⟨h1, h2⟩
  obtain ⟨fl', hrun, hcanon'', hcov''⟩ :=
    dealloc_free_spec hB' hes hnov hpos (hpsz' ▸ hcan') hAB (hpsz' ▸ hinP) hfree'
  have hext : fl' = st.freelist := by
    apply canonical_covers_ext (P := st'.poolsize) hcanon'' (hpsz' ▸ hc)
    intro x
    rw [hcov'' x]
    constructor
    · rintro (hx | hx)
      · exact ((hcov' x).mp hx).1
      · exact hrange x hx.1 hx.2
    · intro hx
      by_cases hr : A - B ≤ x ∧ x < (A - B) + ne * es
      · exact Or.inr hr
      · exact Or.inl ((hcov' x).mpr ⟨hx, hr⟩)
  rw [hext] at hrun
  exact hrun

theorem claim_C2_roundtrip_amended_witness :
    deallocate 64 ⟨some 0, 1024, [(16, 1008)], clear_mem (fun _ => 0) 0 16⟩ 0 16 1 =
      .ok (true, ⟨some 0, 1024, [(0, 1024)], clear_mem (fun _ => 0) 0 16⟩) := by
  have h := claim_C2_roundtrip_amended 64 ⟨some 0, 1024, [(0, 1024)], fun _ => 0⟩
    0 16 1 0 ⟨some 0, 1024, [(16, 1008)], clear_mem (fun _ => 0) 0 16⟩
    rfl ⟨by norm_num [List.chain'_singleton], by norm_num⟩ (by norm_num) rfl
  exact h

theorem claim_C2_counterexample :
    canonical 1024 [(1, 7)] ∧
    allocate 64 ⟨some 0, 1024, [(1, 7)], fun _ => 0⟩ 0 8 =
      .ok (some 8, ⟨some 0, 1024, [(1, 7)], clear_mem (fun _ => 0) 8 0⟩) ∧
    deallocate 64 ⟨some 0, 1024, [(1, 7)], clear_mem (fun _ => 0) 8 0⟩ 8 0 8 =
      .error () := by
  refine ⟨⟨by norm_num [List.chain'_singleton], by norm_num⟩, rfl, rfl⟩

theorem deallocate_ok_facts {w : Nat} {st : AllocState} {B p ne es : Nat}
    {r : Bool × AllocState}
    (hB : st.pool = some B)
    (h : deallocate w st p ne es = .ok r) :
    0 < es ∧ ne * es % 2 ^ w / es = ne := by
  obtain ⟨pool, P, fl, mem⟩ := st
  simp only at hB
  subst hB
  by_cases hes : es = 0
  · simp [deallocate, hes] at h
  · simp only [deallocate, hes, if_false, reduceIte] at h
    refine ⟨Nat.pos_of_ne_zero hes, ?_⟩
    split at h
    · simp at h
    · next hg => exact not_not.mp hg

theorem pairwise_erase_rel {R : Nat × Nat → Nat × Nat → Prop}
    {l : List (Nat × Nat)} {a : Nat × Nat}
    (hp : l.Pairwise R) (ha : a ∈ l) :
    ∀ q ∈ l.erase a, R a q ∨ R q a := by
  induction l with
  | nil => simp at ha
  | cons b t ih =>
    rw [List.pairwise_cons] at hp
    by_cases hba : b = a
    · subst hba
      rw [List.erase_cons_head]
      intro q hq
      exact Or.inl (hp.1 q hq)
    · have hat : a ∈ t := by
        rcases List.mem_cons.mp ha with h1 | h1
        · exact absurd h1.symm hba
        · exact h1
      rw [List.erase_cons_tail (by simpa using hba)]
      intro q hq
      rcases List.mem_cons.mp hq with rfl | hq
      · exact Or.inr (hp.1 a hat)
      · exact ih hp.2 hat q hq

theorem reach_invariant {w B P : Nat} {st : AllocState} {live : List (Nat × Nat)}
    (h : Reach w B P st live) :
    st.pool = some B ∧ st.poolsize = P ∧ canonical P st.freelist ∧
    (∀ q ∈ live, B ≤ q.1 ∧ 0 < q.2 ∧ (q.1 - B) + q.2 ≤ P ∧
      (∀ x, q.1 - B ≤ x → x < (q.1 - B) + q.2 → ¬ covers st.freelist x)) ∧
    live.Pairwise (fun a b => a.1 + a.2 ≤ b.1 ∨ b.1 + b.2 ≤ a.1) := by
  induction h with
  | init hP =>
    refine ⟨rfl, rfl, ⟨by simp [List.chain'_singleton], ?_⟩, ?_, ?_⟩
    · intro e he
      simp only [List.mem_singleton] at he
      subst he
      simp only
      omega
    · intro q hq
      simp at hq
    · simp
  | @alloc_ok st1 live1 ne es A st' hr hpos hall ih =>
    obtain ⟨hB, hpsz, hcan, hlive, hpw⟩ := ih
    have hcanp : canonical st1.poolsize st1.freelist := by rw [hpsz]; exact hcan
    obtain ⟨hAB, hcan', hinP, hpool', hpsz', hmem', hcov', hrange⟩ :=
      alloc_canonical hB hpos hcanp hall
    refine ⟨by rw [hpool', hB], by rw [hpsz', hpsz], ?_, ?_, ?_⟩
    · rw [← hpsz]
      exact hcan'
    · intro q hq
      rcases List.mem_cons.mp hq with rfl | hq
      · refine ⟨hAB, hpos, by omega, ?_⟩
        intro x h1 h2 hcx
        exact ((hcov' x).mp hcx).2 ⟨h1, h2⟩
      · obtain ⟨hq1, hq2, hq3, hq4⟩ := hlive q hq
        refine ⟨hq1, hq2, hq3, ?_⟩
        intro x h1 h2 hcx
        exact hq4 x h1 h2 ((hcov' x).mp hcx).1
    · refine List.pairwise_cons.mpr ⟨?_, hpw⟩
      intro q hq
      obtain ⟨hq1, hq2, hq3, hq4⟩ := hlive q hq
      by_contra hover
      push_neg at hover
      obtain ⟨h1, h2⟩ := hover
      have hcx : covers _ (max (A - B) (q.1 - B)) :=
        hrange (max (A - B) (q.1 - B)) (by omega) (by omega)
      exact hq4 (max (A - B) (q.1 - B)) (by omega) (by omega) hcx
  | @alloc_fail st1 live1 ne es st' hr hall ih =>
    have he := allocate_none_eq hall
    rwa [he]
  | @dealloc_ok st1 live1 p ne es b st' hr hmem hde ih =>
    obtain ⟨hB, hpsz, hcan, hlive, hpw⟩ := ih
    obtain ⟨hq1, hq2, hq3, hq4⟩ := hlive _ hmem
    obtain ⟨hes, hdiv⟩ := deallocate_ok_facts hB hde
    have hnov : ne * es < 2 ^ w := (wrapped_div_eq_iff ne es w hes).mp hdiv
    have hcanp : canonical st1.poolsize st1.freelist := by rw [hpsz]; exact hcan
    obtain ⟨fl', hrun, hcan', hcov'⟩ :=
      dealloc_free_spec hB hes hnov hq2 hcanp hq1 (by omega)
        (fun x h1 h2 => hq4 x h1 h2)
    rw [hde] at hrun
    have hinj := Except.ok.inj hrun
    obtain ⟨hb, hst⟩ : b = true ∧ st' = { st1 with freelist := fl' } :=
      ⟨congrArg Prod.fst hinj, congrArg Prod.snd hinj⟩
    subst hst
    refine ⟨hB, hpsz, by rw [← hpsz]; exact hcan', ?_, ?_⟩
    · intro q hq
      have hqlive : q ∈ live1 := List.mem_of_mem_erase hq
      obtain ⟨hr1, hr2, hr3, hr4⟩ := hlive q hqlive
      refine ⟨hr1, hr2, hr3, ?_⟩
      have hdisj := pairwise_erase_rel hpw hmem q hq
      intro x h1 h2 hcx
      rcases (hcov' x).mp hcx with hcx' | hcx'
      · exact hr4 x h1 h2 hcx'
      · rcases hdisj with hd | hd <;> simp only at hd <;> omega
    · exact hpw.sublist (List.erase_sublist _ _)
  | @dealloc_fail st1 live1 p ne es st' hr hde ih =>
    have he := deallocate_false_eq hde
    rwa [he]

/-- Claim C3 (amended): after any sequence of positive-size allocations and
matching deallocations starting from the initial free list `[(0, P)]`
(the `Reach` relation), the free list is sorted strictly by offset, its
extents are pairwise disjoint, and no two consecutive extents are adjacent
(`offset + length < next offset`).  The unamended claim, quantifying over
all `allocate`/`deallocate` sequences, fails: a zero-size allocation can
split an extent into two adjacent pieces (see the counterexample). -/
theorem claim_C3_canonical_amended (w B P : Nat) (st : AllocState)
    (live : List (Nat × Nat)) (h : Reach w B P st live) :
    st.freelist.Chain' (fun a b => a.1 + a.2 < b.1) ∧
    List.Pairwise (fun a b : Extent => a.1 < b.1) st.freelist ∧
    List.Pairwise (fun a b : Extent => a.1 + a.2 ≤ b.1 ∨ b.1 + b.2 ≤ a.1)
      st.freelist := by
  obtain ⟨-, -, hcan, -, -⟩ := reach_invariant h
  have hpw := canonical_pairwise hcan
  refine ⟨hcan.1, ?_, ?_⟩
  · refine hpw.imp ?_
    intro a b hab
    omega
  · refine hpw.imp ?_
    intro a b hab
    omega

theorem claim_C3_canonical_amended_witness :
    List.Chain' (fun a b : Extent => a.1 + a.2 < b.1) [((0 : Nat), (1024 : Nat))] ∧
    List.Pairwise (fun a b : Extent => a.1 < b.1) [((0 : Nat), (1024 : Nat))] ∧
    List.Pairwise (fun a b : Extent => a.1 + a.2 ≤ b.1 ∨ b.1 + b.2 ≤ a.1)
      [((0 : Nat), (1024 : Nat))] :=
  claim_C3_canonical_amended 64 0 1024 ⟨some 0, 1024, [(0, 1024)], fun _ => 0⟩ []
    (Reach.init (by norm_num))

theorem claim_C3_counterexample :
    allocate 64 ⟨some 0, 1024, [(0, 1024)], fun _ => 0⟩ 1 1 =
      .ok (some 0, ⟨some 0, 1024, [(1, 1023)], clear_mem (fun _ => 0) 0 1⟩) ∧
    allocate 64 ⟨some 0, 1024, [(1, 1023)], clear_mem (fun _ => 0) 0 1⟩ 0 8 =
      .ok (some 8, ⟨some 0, 1024, [(1, 7), (8, 1016)],
        clear_mem (clear_mem (fun _ => 0) 0 1) 8 0⟩) ∧
    ¬ ([((1 : Nat), (7 : Nat)), (8, 1016)].Chain' fun a b => a.1 + a.2 < b.1) := by
  refine ⟨rfl, rfl, fun hch => ?_⟩
  have h1 := (List.chain'_cons.mp hch).1
  simp only at h1
  omega
